import Mathlib

/-! taurus-minio: the streaming chunked authenticated-encryption pipeline

A shallow embedding of `encryption/encryption.go` and `files/files.go`.

* Byte slices are `List UInt8`; Go's `uint64` block counters are natural
  numbers whose only use, `idToBytes`, reduces them modulo `2^64`.
* A panic or `log.Fatal` is an `Except.error`.
* The AES-GCM primitive (`crypto/cipher`), the random source (`crypto/rand`),
  the readers (`io`, `mime/multipart`, `minio.Object`), the regular-expression
  engine and `strconv.Atoi` are libraries outside the repository. They are
  modelled by the small interfaces below; every property of the cipher that a
  theorem relies on is an explicit hypothesis of that theorem.
-/

namespace TaurusMinio

abbrev Byte := UInt8

/-! ## Library models -/

instance instDecidableEqExcept {ε α : Type} [DecidableEq ε] [DecidableEq α] :
    DecidableEq (Except ε α)
  | .ok a, .ok b =>
    if h : a = b then isTrue (by rw [h]) else isFalse (fun h' => h (by cases h'; rfl))
  | .error a, .error b =>
    if h : a = b then isTrue (by rw [h]) else isFalse (fun h' => h (by cases h'; rfl))
  | .ok _, .error _ => isFalse (fun h => by cases h)
  | .error _, .ok _ => isFalse (fun h => by cases h)

/-- Go's builtin `copy(dst, src)`: the first `min (len dst) (len src)` elements
of `dst` are overwritten by those of `src`; the result is the new `dst`. -/
def copy (dst src : List Byte) : List Byte :=
  src.take dst.length ++ dst.drop src.length

/-- The `cipher.AEAD` interface as the repository uses it, always with a nil
destination: `Seal nonce plaintext additionalData` and
`Open nonce ciphertext additionalData`, where `none` is Go's `err != nil`. -/
structure AEAD where
  Seal : List Byte → List Byte → List Byte → List Byte
  Open : List Byte → List Byte → List Byte → Option (List Byte)

/-- Opening what was sealed, under the same 12-byte nonce and the same
associated data, gives the plaintext back. -/
def AEAD.Correct (g : AEAD) : Prop :=
  ∀ iv p ad, iv.length = 12 → g.Open iv (g.Seal iv p ad) ad = some p

/-- The sealed text is the plaintext length plus a 16-byte tag (GCM). -/
def AEAD.TagSize16 (g : AEAD) : Prop :=
  ∀ iv p ad, (g.Seal iv p ad).length = p.length + 16

/-- An idealised AEAD: `Open` succeeds only on the exact associated data that
was given to `Seal`. -/
def AEAD.Binding (g : AEAD) : Prop :=
  ∀ iv p ad ad', ad ≠ ad' → g.Open iv (g.Seal iv p ad) ad' = none

/-- `crypto/rand.Reader`: an arbitrary infinite byte stream together with the
number of bytes already handed out. -/
structure RandReader where
  stream : Nat → Byte
  pos : Nat

/-- The next `n` bytes of the random stream. -/
def RandReader.window (rand : RandReader) (n : Nat) : List Byte :=
  (List.range n).map (fun i => rand.stream (rand.pos + i))

/-! ## encryption/encryption.go -/

structure Cryptographer where
  gcm : AEAD

/-- `InitEncrypter(key)`: `aes.NewCipher` accepts keys of 16, 24 or 32 bytes and
`cipher.NewGCM` wraps the block cipher; any other key length panics. `aesGCM` is
the library's AES-GCM as a function of the key. -/
def InitEncrypter (aesGCM : List Byte → AEAD) (key : List Byte) : Except String Cryptographer :=
  if key.length = 16 ∨ key.length = 24 ∨ key.length = 32 then
    .ok { gcm := aesGCM key }
  else
    .error "crypto/aes: invalid key size"

/-- `GenerateIV(length)`: `io.ReadFull(rand.Reader, nonce)` fills all `length`
bytes. -/
def GenerateIV (length : Nat) (rand : RandReader) : List Byte × RandReader :=
  (rand.window length, { rand with pos := rand.pos + length })

/-- `idToBytes`: `binary.LittleEndian.PutUint64` into an 8-byte block; `byte(v >> k)`
keeps the low eight bits. -/
def idToBytes (id : Nat) : List Byte :=
  [UInt8.ofNat id, UInt8.ofNat (id / 2 ^ 8), UInt8.ofNat (id / 2 ^ 16),
   UInt8.ofNat (id / 2 ^ 24), UInt8.ofNat (id / 2 ^ 32), UInt8.ofNat (id / 2 ^ 40),
   UInt8.ofNat (id / 2 ^ 48), UInt8.ofNat (id / 2 ^ 56)]

/-- The associated data `Encrypt` builds: `make([]byte, 8)`, `copy` of the block
bytes, then `append(additional_data, fileId...)`. -/
def Encrypt.additional_data (blockId : Nat) (fileId : List Byte) : List Byte :=
  copy (List.replicate 8 0) (idToBytes blockId) ++ fileId

/-- `Encrypt(filePart, blockId, fileId)`: returns `append(iv, cypherBytes...)` and
the advanced random source. -/
def Encrypt (c : Cryptographer) (filePart : List Byte) (blockId : Nat)
    (fileId : List Byte) (rand : RandReader) : List Byte × RandReader :=
  let additional_data := Encrypt.additional_data blockId fileId
  let (iv, rand1) := GenerateIV 12 rand
  let cypherBytes := c.gcm.Seal iv filePart additional_data
  (iv ++ cypherBytes, rand1)

/-- The associated data `Decrypt` builds: `append(block, fileId...)`. -/
def Decrypt.additional_data (blockId : Nat) (fileId : List Byte) : List Byte :=
  idToBytes blockId ++ fileId

/-- `Decrypt(filePart, fileId, blockId)`. `filePart[12:]` panics when
`len(filePart) < 12` (the earlier `filePart[:12]` may reach into spare capacity,
but nothing is done with it before the panic); a failed `gcm.Open` panics. -/
def Decrypt (c : Cryptographer) (filePart fileId : List Byte) (blockId : Nat) :
    Except String (List Byte) :=
  let additional_data := Decrypt.additional_data blockId fileId
  if filePart.length < 12 then
    .error "slice bounds out of range"
  else
    let iv := filePart.take 12
    let dataBytes := filePart.drop 12
    match c.gcm.Open iv dataBytes additional_data with
    | none => .error "cipher: message authentication failed"
    | some decryptedBytes => .ok decryptedBytes

/-! ## files/files.go: constants and helpers -/

def BUFFER_SIZE : Nat := 16384

/-- `getEncryptionOverhead()`. -/
def getEncryptionOverhead : Nat := 12 + 16

/-- `getChunkName(filename, id)`: `fmt.Sprintf("%s_chunk%d", filename, id)`. -/
def getChunkName (filename : String) (id : Nat) : String :=
  filename ++ "_chunk" ++ toString id

/-! ## files/files.go: parseChunkSize

The pattern `([0-9]+)([A-z]*)B` is not anchored: `FindStringSubmatch` returns
the leftmost match, and within it every repetition takes as much as it can and
gives back only what the rest of the pattern needs (Go's leftmost-first rule).
The matcher below is that search written out for this one pattern. -/

/-- The class `[0-9]`. -/
def isDigit (c : Char) : Bool := 48 ≤ c.toNat && c.toNat ≤ 57

/-- The class `[A-z]`: the code points from `A` (65) to `z` (122), which besides
the letters holds the six signs between `Z` and `a`. -/
def isAz (c : Char) : Bool := 65 ≤ c.toNat && c.toNat ≤ 122

/-- Matching `([A-z]*)B` at the head of the text: the star first tries one more
character of the class and falls back, when the rest then fails, to ending here
with a `B`. The result is the second group. -/
def Regexp.scaleB : List Char → Option (List Char)
  | [] => none
  | c :: cs =>
    match (if isAz c then Regexp.scaleB cs else none) with
    | some g => some (c :: g)
    | none => if c = 'B' then some [] else none

/-- Matching `[0-9]*([A-z]*)B` at the head of the text, that is the pattern after
its first digit: one more digit is tried first. The result is the rest of the
first group and the second group. -/
def Regexp.digitsScaleB : List Char → Option (List Char × List Char)
  | [] => none
  | c :: cs =>
    match (if isDigit c then Regexp.digitsScaleB cs else none) with
    | some (d, g) => some (c :: d, g)
    | none => (Regexp.scaleB (c :: cs)).map (fun g => ([], g))

/-- Matching the whole pattern at the head of the text. -/
def Regexp.matchHere : List Char → Option (List Char × List Char)
  | [] => none
  | c :: cs =>
    if isDigit c then (Regexp.digitsScaleB cs).map (fun r => (c :: r.1, r.2)) else none

/-- `r.FindStringSubmatch(size)` for `r = ([0-9]+)([A-z]*)B`: the two groups of
the leftmost match, `none` when Go returns nil. -/
def FindStringSubmatch : List Char → Option (List Char × List Char)
  | [] => none
  | c :: cs =>
    match Regexp.matchHere (c :: cs) with
    | some r => some r
    | none => FindStringSubmatch cs

/-- The number a string of decimal digits denotes. -/
def decimalValue (ds : List Char) : Nat :=
  ds.foldl (fun acc c => 10 * acc + (c.toNat - 48)) 0

/-- `strconv.Atoi` with a 64-bit `int`: an optional sign, then one or more
decimal digits; a value outside the `int` range is an error. -/
def Atoi (s : List Char) : Except String Int :=
  let signed : Bool × List Char :=
    match s with
    | '-' :: t => (true, t)
    | '+' :: t => (false, t)
    | _ => (false, s)
  if signed.2.isEmpty || !signed.2.all isDigit then
    .error "invalid syntax"
  else if signed.1 then
    if decimalValue signed.2 ≤ 2 ^ 63 then .ok (-(decimalValue signed.2 : Int))
    else .error "value out of range"
  else if decimalValue signed.2 < 2 ^ 63 then .ok (decimalValue signed.2 : Int)
  else .error "value out of range"

/-- The number of binary digits of a natural number. -/
def bitLength.go : Nat → Nat → Nat
  | 0, _ => 0
  | fuel + 1, n => if n = 0 then 0 else bitLength.go fuel (n / 2) + 1

def bitLength (n : Nat) : Nat := bitLength.go n n

/-- The float64 nearest to a natural number (below `2^1024`), ties to the even
significand: 53 binary digits are kept. Every float64 this file meets is an
integer, and is represented by that integer. -/
def roundToFloat64 (n : Nat) : Nat :=
  if n < 2 ^ 53 then n
  else
    let e := bitLength n - 53
    let q := n / 2 ^ e
    let r := n % 2 ^ e
    if 2 * r < 2 ^ e then q * 2 ^ e
    else if 2 ^ e < 2 * r then (q + 1) * 2 ^ e
    else if q % 2 = 0 then q * 2 ^ e
    else (q + 1) * 2 ^ e

/-- The conversion `float64(mult)` of an `int`. -/
def float64OfInt (i : Int) : Int :=
  if 0 ≤ i then (roundToFloat64 i.toNat : Int) else -(roundToFloat64 (-i).toNat : Int)

/-- The float64 product of two integer-valued floats: the exact product,
rounded once. -/
def float64Mul (a b : Int) : Int := float64OfInt (a * b)

/-- The conversion `uint64(f)` of an integer-valued float. Outside the range of
`uint64` Go leaves the result to the platform: `overflow` stands for it. -/
def uint64OfFloat64 (overflow : Int → Nat) (f : Int) : Nat :=
  if 0 ≤ f ∧ f < 2 ^ 64 then f.toNat else overflow f % 2 ^ 64

/-- The `switch scale` of `parseChunkSize`: `math.Pow(10, k)`, exact for the five
exponents used, and `1` for every other scale. -/
def parseChunkSize.fac (scale : String) : Int :=
  match scale with
  | "K" => 10 ^ 3
  | "M" => 10 ^ 6
  | "G" => 10 ^ 9
  | "T" => 10 ^ 12
  | "P" => 10 ^ 15
  | _ => 1

/-- `parseChunkSize(size)`. `log.Fatalln` and `log.Fatalf` end the process: an
error. -/
def parseChunkSize (overflow : Int → Nat) (size : String) : Except String Nat :=
  match FindStringSubmatch size.toList with
  | none => .error "Matches should be 3"
  | some (digits, unit) =>
    match Atoi digits with
    | .error _ => .error "Cant convert to integer"
    | .ok mult =>
      let number := float64OfInt mult
      let scale := String.mk unit
      let fac := parseChunkSize.fac scale
      .ok (uint64OfFloat64 overflow (float64Mul number fac))

/-- The multiplier the specification gives for a unit. -/
def unitMultiplier (u : String) : Nat :=
  if u = "K" then 10 ^ 3
  else if u = "M" then 10 ^ 6
  else if u = "G" then 10 ^ 9
  else if u = "T" then 10 ^ 12
  else if u = "P" then 10 ^ 15
  else 1

/-! ## Readers, pipes and the object store

An `io.Reader` is a queue of pending segments. `Read` serves the first segment
only: it hands out `min (len p) (len segment)` bytes. A plain stream (the
uploaded file, a stored object) is one segment holding all of its bytes, so that
every read returns `min (len p) (bytes remaining)`; the read end of an `io.Pipe`
holds one segment per `Write` on the other end, an empty `Write` included, which
is a read of zero bytes without error. With nothing pending, `Read` returns
`0, io.EOF`. The `io.Reader` contract lets a reader report `io.EOF` together with
the last bytes or only on the following call; `eagerEOF` says which. -/

structure Reader where
  pending : List (List Byte)
  eagerEOF : Bool

/-- What `n, err := r.Read(p)` leaves behind: `n`, whether `err == io.EOF`, the
buffer `p` after the read, and the reader. -/
structure ReadResult where
  n : Nat
  eof : Bool
  buf : List Byte
  reader : Reader

def Reader.Read (r : Reader) (p : List Byte) : ReadResult :=
  match r.pending with
  | [] => { n := 0, eof := true, buf := p, reader := r }
  | seg :: rest =>
    let n := min p.length seg.length
    let pending := if seg.length ≤ p.length then rest else seg.drop n :: rest
    { n := n
      eof := r.eagerEOF && pending.isEmpty
      buf := seg.take n ++ p.drop n
      reader := { r with pending := pending } }

/-- A stream over the given bytes. -/
def Reader.ofBytes (data : List Byte) (eagerEOF : Bool) : Reader :=
  { pending := if data.isEmpty then [] else [data], eagerEOF := eagerEOF }

/-- The read end of an `io.Pipe` whose write end receives the given writes and is
then closed. A pipe reports `io.EOF` only once it is closed and drained. -/
def Reader.ofPipe (writes : List (List Byte)) : Reader :=
  { pending := writes, eagerEOF := false }

/-- A bound on the number of reads a reader can serve before `io.EOF`. -/
def Reader.size (r : Reader) : Nat :=
  r.pending.foldr (fun seg acc => seg.length + 1 + acc) 0

/-- The bucket: object names with their stored bytes, in the order of the puts. -/
abbrev ObjectStore := List (String × List Byte)

/-- `minioClient.UploadFile(r, fileName)`: `PutObject` drains the reader and
stores the bytes under the name, replacing an older object of that name. -/
def ObjectStore.UploadFile (store : ObjectStore) (fileName : String) (bytes : List Byte) :
    ObjectStore :=
  store.filter (fun o => o.1 != fileName) ++ [(fileName, bytes)]

/-- `minioClient.GetAllChunks(name)`: the keys of the objects whose name starts
with `name + "_"`. -/
def ObjectStore.GetAllChunks (store : ObjectStore) (name : String) : List String :=
  (store.filter (fun o => (name ++ "_").toList.isPrefixOf o.1.toList)).map (fun o => o.1)

/-! ## files/files.go: the two pipelines -/

/-- The `for` loop of `readEncryptWrite`. The result is the list of blocks written
to the pipe, the source reader and the random source afterwards; `none` only
when the loop is cut off after `fuel` rounds. -/
def readEncryptWrite.loop (c : Cryptographer) (fileId : List Byte) :
    Nat → Reader → List Byte → Nat → RandReader →
      Option (List (List Byte) × Reader × RandReader)
  | 0, _, _, _, _ => none
  | fuel + 1, file, outBuf, nextBlock, rand =>
    let res := file.Read outBuf
    if res.eof || res.n == 0 then
      some ([], res.reader, rand)
    else
      let enc := Encrypt c (res.buf.take res.n) nextBlock fileId rand
      match readEncryptWrite.loop c fileId fuel res.reader res.buf (nextBlock + 1) enc.2 with
      | none => none
      | some (written, file1, rand1) => some (enc.1 :: written, file1, rand1)

/-- `readEncryptWrite(file, w)`: the writes to `w` in order (the file id first),
the source reader and the random source afterwards. -/
def readEncryptWrite (c : Cryptographer) (file : Reader) (rand : RandReader) :
    Option (List (List Byte) × Reader × RandReader) :=
  let fileId := GenerateIV 16 rand
  match readEncryptWrite.loop c fileId.1 (file.size + 1) file
      (List.replicate BUFFER_SIZE 0) 0 fileId.2 with
  | none => none
  | some (written, file1, rand1) => some (fileId.1 :: written, file1, rand1)

/-- The `for` loop of `readDecryptWrite`: `Decrypt` is called on `outBuf[:n]` for
every read, also for one of zero bytes, and only then is `n > 0` tested. The
result is the list of writes to the pipe, or the panic. -/
def readDecryptWrite.loop (c : Cryptographer) (fileId : List Byte) :
    Nat → Reader → List Byte → Nat → Option (Except String (List (List Byte)))
  | 0, _, _, _ => none
  | fuel + 1, reader, outBuf, blockId =>
    let res := reader.Read outBuf
    match Decrypt c (res.buf.take res.n) fileId blockId with
    | .error e => some (.error e)
    | .ok decryptedBytes =>
      let written := if res.n > 0 then [decryptedBytes] else []
      if res.eof then
        some (.ok written)
      else
        match readDecryptWrite.loop c fileId fuel res.reader res.buf (blockId + 1) with
        | none => none
        | some (.error e) => some (.error e)
        | some (.ok rest) => some (.ok (written ++ rest))

/-- `readDecryptWrite(reader, w)`: the writes to `w` in order, or the panic. -/
def readDecryptWrite (c : Cryptographer) (reader : Reader) :
    Option (Except String (List (List Byte))) :=
  let res := reader.Read (List.replicate 16 0)
  let fileId := res.buf
  readDecryptWrite.loop c fileId (res.reader.size + 1) res.reader
    (List.replicate (BUFFER_SIZE + 12 + 16) 0) 0

/-- `uploadFileWrapper(file, filename)`: `readEncryptWrite` feeds a pipe that
`UploadFile` drains into the object. -/
def uploadFileWrapper (c : Cryptographer) (file : Reader) (filename : String)
    (rand : RandReader) (store : ObjectStore) : Option (ObjectStore × Reader × RandReader) :=
  match readEncryptWrite c file rand with
  | none => none
  | some (written, file1, rand1) => some (store.UploadFile filename written.flatten, file1, rand1)

/-- `minioClient.DownloadFile(name)`: a reader over the stored bytes. A missing
object shows as an error of the first `Read`, which the callers treat as fatal. -/
def ObjectStore.DownloadFile (store : ObjectStore) (name : String) (eagerEOF : Bool) :
    Except String Reader :=
  match store.lookup name with
  | none => .error "The specified key does not exist."
  | some bytes => .ok (Reader.ofBytes bytes eagerEOF)

/-- The non-chunked upload followed by the non-chunked download: the byte stream
that `readEncryptWrite` writes for the plaintext is the stored object, and
`readDecryptWrite` reads it back. The result is what the download writes. -/
def nonChunkedRoundTrip (c : Cryptographer) (plaintext : List Byte) (rand : RandReader)
    (eagerFile eagerObject : Bool) : Option (Except String (List Byte)) :=
  match readEncryptWrite c (Reader.ofBytes plaintext eagerFile) rand with
  | none => none
  | some (written, _, _) =>
    match readDecryptWrite c (Reader.ofBytes written.flatten eagerObject) with
    | none => none
    | some (.error e) => some (.error e)
    | some (.ok out) => some (.ok out.flatten)

/-! ## files/files.go: the chunked upload

The chunk goroutine and `readEncryptWrite` run on the two ends of a synchronous
pipe; the handler reads `isEof` after the upload of the chunk has returned. The
embedding takes the schedule the source comments on ("Can only happen after
w_chunk.Close() is called"): the goroutine has run to its end when the handler
tests `isEof`. -/

/-- The read of the chunk goroutine: into a fresh `smallBuff` of
`spaceForNextWrite` bytes that is then copied to `outBuf` when less than a full
buffer of budget is left, into `outBuf` otherwise. -/
def UploadFilesHandler.chunkRead (chunkBufferSize spaceForNextWrite : Nat) (file : Reader)
    (outBuf : List Byte) : ReadResult :=
  if spaceForNextWrite < chunkBufferSize then
    let small := file.Read (List.replicate spaceForNextWrite 0)
    { small with buf := copy outBuf small.buf }
  else
    file.Read outBuf

/-- The inner `for` of the chunk goroutine: what it writes to `w_chunk`, and the
file reader, `outBuf` and `isEof` it leaves behind. `currentChunkSize` is a
`uint64`. -/
def UploadFilesHandler.chunkWriter (byteSize chunkBufferSize : Nat) :
    Nat → Reader → List Byte → Nat → Option (List (List Byte) × Reader × List Byte × Bool)
  | 0, _, _, _ => none
  | fuel + 1, file, outBuf, currentChunkSize =>
    if byteSize ≤ currentChunkSize then
      some ([], file, outBuf, false)
    else
      let spaceForNextWrite := byteSize - currentChunkSize
      let res := UploadFilesHandler.chunkRead chunkBufferSize spaceForNextWrite file outBuf
      let currentChunkSize1 := (currentChunkSize + res.n + getEncryptionOverhead) % 2 ^ 64
      if res.eof then
        some ([res.buf.take res.n], res.reader, res.buf, true)
      else
        match UploadFilesHandler.chunkWriter byteSize chunkBufferSize fuel res.reader res.buf
            currentChunkSize1 with
        | none => none
        | some (writes, file1, outBuf1, isEof) =>
          some (res.buf.take res.n :: writes, file1, outBuf1, isEof)

/-- One round of the outer `for`: a chunk's name, the writes of the chunk goroutine
to its pipe, and the object `uploadFileWrapper` stored under the name. -/
structure ChunkUpload where
  name : String
  piped : List (List Byte)
  object : List Byte

/-- The outer `for` of the chunked branch of `UploadFilesHandler`: the chunks
uploaded in order, and whether the loop has come to its `break`; after `fuel`
rounds without it the chunks so far are returned with `false`. -/
def UploadFilesHandler.chunkLoop (c : Cryptographer) (filename : String)
    (byteSize chunkBufferSize : Nat) :
    Nat → Reader → List Byte → Nat → RandReader → List ChunkUpload × Bool
  | 0, _, _, _, _ => ([], false)
  | fuel + 1, file, outBuf, chunkId, rand =>
    let chunkName := getChunkName filename chunkId
    match UploadFilesHandler.chunkWriter byteSize chunkBufferSize (byteSize + 1) file outBuf
        16 with
    | none => ([], false)
    | some (piped, file1, outBuf1, isEof) =>
      match readEncryptWrite c (Reader.ofPipe piped) rand with
      | none => ([], false)
      | some (written, _, rand1) =>
        let chunk : ChunkUpload :=
          { name := chunkName, piped := piped, object := written.flatten }
        if isEof then
          ([chunk], true)
        else
          let rest := UploadFilesHandler.chunkLoop c filename byteSize chunkBufferSize fuel
            file1 outBuf1 (chunkId + 1) rand1
          (chunk :: rest.1, rest.2)

/-- The chunked branch of `UploadFilesHandler` from the parsed `byteSize` on. The
number of rounds is bounded by the size of the file reader, which is enough
whenever every round reads at least one byte. -/
def UploadFilesHandler.chunked (c : Cryptographer) (filename : String) (byteSize : Nat)
    (file : Reader) (rand : RandReader) : List ChunkUpload × Bool :=
  let chunkBufferSize := if byteSize < BUFFER_SIZE then byteSize / 4 else BUFFER_SIZE
  let outBuf := List.replicate chunkBufferSize (0 : Byte)
  UploadFilesHandler.chunkLoop c filename byteSize chunkBufferSize (file.size + 1) file outBuf
    0 rand

/-- The bucket after the chunks have been put. -/
def ObjectStore.putChunks (store : ObjectStore) (chunks : List ChunkUpload) : ObjectStore :=
  chunks.foldl (fun st ch => st.UploadFile ch.name ch.object) store

/-- `UploadFilesHandler`: the bucket after the request, or the error answered.
Without chunking the file goes through `uploadFileWrapper` under its own name;
with chunking the `chunk-size` field is parsed and the chunks are put one after
the other. `none` stands for a request that does not come to an end. -/
def UploadFilesHandler (c : Cryptographer) (overflow : Int → Nat) (useChunking : Bool)
    (store : ObjectStore) (filename chunkSize : String) (file : Reader) (rand : RandReader) :
    Option (Except String ObjectStore) :=
  if !useChunking then
    match uploadFileWrapper c file filename rand store with
    | none => none
    | some (store1, _, _) => some (.ok store1)
  else
    match parseChunkSize overflow chunkSize with
    | .error e => some (.error e)
    | .ok byteSize =>
      let uploaded := UploadFilesHandler.chunked c filename byteSize file rand
      if uploaded.2 then some (.ok (store.putChunks uploaded.1)) else none

/-! ## files/files.go: the download -/

/-- What the handler answers: 404, or the streamed body. -/
inductive Response where
  | notFound
  | body (bytes : List Byte)
  deriving DecidableEq

/-- The read loop of `retrieveAllChunks`: appends what it reads from the pipe to
`chunkBuff` until `io.EOF`. -/
def retrieveAllChunks.readAll : Nat → Reader → List Byte → List Byte → Option (List Byte)
  | 0, _, _, _ => none
  | fuel + 1, r, readBuf, chunkBuff =>
    let res := r.Read readBuf
    let chunkBuff1 := chunkBuff ++ res.buf.take res.n
    if res.eof then some chunkBuff1
    else retrieveAllChunks.readAll fuel res.reader res.buf chunkBuff1

/-- One round of the loop of `retrieveAllChunks`: download the chunk, decrypt it
through a pipe, collect the plaintext. -/
def retrieveAllChunks.fetch (c : Cryptographer) (store : ObjectStore) (eagerEOF : Bool)
    (chunkName : String) : Option (Except String (List Byte)) :=
  match store.DownloadFile chunkName eagerEOF with
  | .error e => some (.error e)
  | .ok chunkReader =>
    match readDecryptWrite c chunkReader with
    | none => none
    | some (.error e) => some (.error e)
    | some (.ok written) =>
      match retrieveAllChunks.readAll ((Reader.ofPipe written).size + 1) (Reader.ofPipe written)
          (List.replicate BUFFER_SIZE 0) [] with
      | none => none
      | some chunkBuff => some (.ok chunkBuff)

/-- The chunk indices a routine works through: `i*routineCount + id` for
`i = 0, ..., chunkCount - 1`. -/
def retrieveAllChunks.chunkIds (id routineCount chunkCount : Nat) : List Nat :=
  (List.range chunkCount).map (fun i => i * routineCount + id)

/-- Running the given rounds one after the other; the first panic ends it. -/
def retrieveAllChunks.rounds (fetch : String → Option (Except String (List Byte)))
    (name : String) : List Nat → Option (Except String (List (List Byte)))
  | [] => some (.ok [])
  | chunkId :: rest =>
    match fetch (getChunkName name chunkId) with
    | none => none
    | some (.error e) => some (.error e)
    | some (.ok chunkBuff) =>
      match retrieveAllChunks.rounds fetch name rest with
      | none => none
      | some (.error e) => some (.error e)
      | some (.ok sent) => some (.ok (chunkBuff :: sent))

/-- `retrieveAllChunks(id, routineCount, chunkCount, name, result)`: the buffers
sent on `result`, in order. -/
def retrieveAllChunks (fetch : String → Option (Except String (List Byte)))
    (id routineCount chunkCount : Nat) (name : String) :
    Option (Except String (List (List Byte))) :=
  retrieveAllChunks.rounds fetch name (retrieveAllChunks.chunkIds id routineCount chunkCount)

/-- The `count` that `GetFileFromIDHandler` hands to routine `j`. -/
def GetFileFromIDHandler.count (chunkCount routineCount j : Nat) : Nat :=
  let count := chunkCount / routineCount
  let remainder := chunkCount - count * routineCount
  if remainder > j then count + 1 else count

/-- One round of the ordered delivery: receive from the channel of routine
`i % routineCount` and write the buffer. A receive from a channel on which
nothing more is sent never returns: `none`. -/
def GetFileFromIDHandler.deliverStep (routineCount : Nat)
    (state : Option (List (List (List Byte)) × List (List Byte))) (i : Nat) :
    Option (List (List (List Byte)) × List (List Byte)) :=
  match state with
  | none => none
  | some (chunkers, written) =>
    let routineId := i % routineCount
    match chunkers.get? routineId with
    | some (data :: waiting) => some (chunkers.set routineId waiting, written ++ [data])
    | _ => none

/-- The ordered delivery of `GetFileFromIDHandler`: from what every routine sends
on its channel to what is left on the channels and the writes to the response. -/
def GetFileFromIDHandler.deliver (routineCount chunkCount : Nat)
    (chunkers : List (List (List Byte))) :
    Option (List (List (List Byte)) × List (List Byte)) :=
  (List.range chunkCount).foldl (GetFileFromIDHandler.deliverStep routineCount)
    (some (chunkers, []))

/-- All routines of the download, each with its `count`; a panic in one of them
ends the process. -/
def GetFileFromIDHandler.routines (fetch : String → Option (Except String (List Byte)))
    (name : String) (chunkCount routineCount : Nat) :
    List Nat → Option (Except String (List (List (List Byte))))
  | [] => some (.ok [])
  | j :: js =>
    match retrieveAllChunks fetch j routineCount
        (GetFileFromIDHandler.count chunkCount routineCount j) name with
    | none => none
    | some (.error e) => some (.error e)
    | some (.ok sent) =>
      match GetFileFromIDHandler.routines fetch name chunkCount routineCount js with
      | none => none
      | some (.error e) => some (.error e)
      | some (.ok others) => some (.ok (sent :: others))

/-- The chunked branch of `GetFileFromIDHandler` for a given number of chunks and
of routines: the routines `0, ..., routineCount - 1` and the ordered delivery. -/
def GetFileFromIDHandler.chunked (fetch : String → Option (Except String (List Byte)))
    (name : String) (chunkCount routineCount : Nat) : Option (Except String Response) :=
  match GetFileFromIDHandler.routines fetch name chunkCount routineCount
      (List.range routineCount) with
  | none => none
  | some (.error e) => some (.error e)
  | some (.ok chunkers) =>
    match GetFileFromIDHandler.deliver routineCount chunkCount chunkers with
    | none => none
    | some (_, written) => some (.ok (.body written.flatten))

/-- `GetFileFromIDHandler`: the body streamed to the client, 404, or the panic. -/
def GetFileFromIDHandler (c : Cryptographer) (store : ObjectStore) (eagerEOF : Bool)
    (useChunking : Bool) (name : String) : Option (Except String Response) :=
  if !useChunking then
    match store.DownloadFile name eagerEOF with
    | .error e => some (.error e)
    | .ok reader =>
      match readDecryptWrite c reader with
      | none => none
      | some (.error e) => some (.error e)
      | some (.ok written) => some (.ok (.body written.flatten))
  else
    let chunks := store.GetAllChunks name
    let chunkCount := chunks.length
    if chunkCount == 0 then
      some (.ok .notFound)
    else
      let routineCount := 8
      GetFileFromIDHandler.chunked (retrieveAllChunks.fetch c store eagerEOF) name chunkCount
        routineCount

/-! ## Reference notions used in the statements -/

/-- The number a little-endian byte string denotes (`binary.LittleEndian.Uint64`
on eight bytes). -/
def littleEndianValue : List Byte → Nat
  | [] => 0
  | b :: bs => b.toNat + 256 * littleEndianValue bs

/-- The number of blocks of at most `BUFFER_SIZE` bytes a text of length `L` is
cut into: `L / BUFFER_SIZE` rounded up. -/
def numBlocks (L : Nat) : Nat := (L + BUFFER_SIZE - 1) / BUFFER_SIZE

/-- The Go slice `P[BUFFER_SIZE*i : min(BUFFER_SIZE*(i+1), len(P))]`. -/
def plainBlock (P : List Byte) (i : Nat) : List Byte :=
  (P.take (min (BUFFER_SIZE * (i + 1)) P.length)).drop (BUFFER_SIZE * i)

/-- Sealing the first `k` blocks of a text one after the other, the block index
and the random source moving on by one block and by 12 bytes each time. -/
def sealBlocks (c : Cryptographer) (fileId : List Byte) :
    Nat → List Byte → Nat → RandReader → List (List Byte)
  | 0, _, _, _ => []
  | k + 1, P, nextBlock, rand =>
    (Encrypt c (P.take BUFFER_SIZE) nextBlock fileId rand).1
      :: sealBlocks c fileId k (P.drop BUFFER_SIZE) (nextBlock + 1)
          { rand with pos := rand.pos + 12 }

/-- How many of the chunk indices below `i` fall to routine `j` of `N`: the
number of `k < i` with `k % N = j`. -/
def deliveredFrom (N i j : Nat) : Nat := i / N + (if j < i % N then 1 else 0)

/-- What the channels hold after `i` rounds of the ordered delivery when routine
`j` sends `content` of each of its chunk indices in order. -/
def channelsAfter (content : Nat → List Byte) (C N i : Nat) : List (List (List Byte)) :=
  (List.range N).map (fun j =>
    ((retrieveAllChunks.chunkIds j N (GetFileFromIDHandler.count C N j)).drop
      (deliveredFrom N i j)).map content)

/-- The blocks `readEncryptWrite` takes from a pipe: the writes up to the first
empty one, at which its loop breaks. -/
def pipedBlocks (piped : List (List Byte)) : List (List Byte) :=
  piped.takeWhile (fun seg => !seg.isEmpty)

/-- Sealing the given blocks one after the other, the block index and the random
source moving on by one block and by 12 bytes each time. -/
def sealEach (c : Cryptographer) (fileId : List Byte) :
    List (List Byte) → Nat → RandReader → List (List Byte)
  | [], _, _ => []
  | block :: rest, nextBlock, rand =>
    (Encrypt c block nextBlock fileId rand).1
      :: sealEach c fileId rest (nextBlock + 1) { rand with pos := rand.pos + 12 }

/-- The on-wire size of a chunk that holds the given plaintext blocks: the 16-byte
file id and, for a block of `n` bytes, `n + 28` bytes. -/
def onWireSize (blocks : List (List Byte)) : Nat :=
  16 + (blocks.map (fun block => block.length + 28)).sum

/-- Where in the random stream the file id of each chunk of an upload starts, the
first at `pos`: a chunk draws 16 bytes for its id and 12 for every block. -/
def idPositions : Nat → List ChunkUpload → List Nat
  | _, [] => []
  | pos, chunk :: rest =>
    pos :: idPositions (pos + 16 + 12 * (pipedBlocks chunk.piped).length) rest

/-- The object `uploadFileWrapper` stores for a chunk whose pipe received the
given writes: the file id drawn first, then the sealed blocks. -/
def chunkObject (c : Cryptographer) (piped : List (List Byte)) (rand : RandReader) :
    List Byte :=
  ((GenerateIV 16 rand).1
    :: sealEach c (GenerateIV 16 rand).1 (pipedBlocks piped) 0 (GenerateIV 16 rand).2).flatten

/-! ## Two small ciphers that inhabit the interface -/

/-- A cipher with a 16-byte tag: the text is kept as it is and the tag is cut
from the nonce and the associated data. -/
def tagCipher : AEAD where
  Seal := fun iv p ad => p ++ (iv ++ ad ++ List.replicate 16 0).take 16
  Open := fun iv ct ad =>
    if ct.length < 16 then none
    else if ct.drop (ct.length - 16) = (iv ++ ad ++ List.replicate 16 0).take 16 then
      some (ct.take (ct.length - 16))
    else none

/-- A self-delimiting code of a byte string: every byte is preceded by `1`, and
`0` closes the string. -/
def selfDelimit : List Byte → List Byte
  | [] => [0]
  | b :: bs => 1 :: b :: selfDelimit bs

/-- A cipher whose tag is the whole associated data, self-delimited and put in
front of the text. -/
def bindingCipher : AEAD where
  Seal := fun _ p ad => selfDelimit ad ++ p
  Open := fun _ ct ad =>
    if (selfDelimit ad).isPrefixOf ct then some (ct.drop (selfDelimit ad).length) else none

/-! ## Theorems: the cipher layer -/

theorem copy_idToBytes (blockId : Nat) :
    copy (List.replicate 8 0) (idToBytes blockId) = idToBytes blockId := by
  simp [copy, idToBytes]

theorem Encrypt.additional_data_eq (blockId : Nat) (fileId : List Byte) :
    Encrypt.additional_data blockId fileId = idToBytes blockId ++ fileId := by
  rw [Encrypt.additional_data, copy_idToBytes]

theorem RandReader.length_window (rand : RandReader) (n : Nat) :
    (rand.window n).length = n := by
  simp [RandReader.window]

theorem GenerateIV_length (n : Nat) (rand : RandReader) :
    (GenerateIV n rand).1.length = n := by
  simp [GenerateIV, RandReader.length_window]

theorem Encrypt_fst (c : Cryptographer) (p f : List Byte) (b : Nat) (rand : RandReader) :
    (Encrypt c p b f rand).1
      = rand.window 12 ++ c.gcm.Seal (rand.window 12) p (idToBytes b ++ f) := by
  simp [Encrypt, GenerateIV, Encrypt.additional_data_eq]

theorem Encrypt_snd (c : Cryptographer) (p f : List Byte) (b : Nat) (rand : RandReader) :
    (Encrypt c p b f rand).2 = { rand with pos := rand.pos + 12 } := by
  simp [Encrypt, GenerateIV]

theorem Decrypt_append (c : Cryptographer) (iv ct f : List Byte) (b : Nat)
    (hiv : iv.length = 12) :
    Decrypt c (iv ++ ct) f b =
      match c.gcm.Open iv ct (idToBytes b ++ f) with
      | none => .error "cipher: message authentication failed"
      | some d => .ok d := by
  have h1 : ¬ ((iv ++ ct).length < 12) := by simp [hiv]
  have h2 : (iv ++ ct).take 12 = iv := List.take_left' hiv
  have h3 : (iv ++ ct).drop 12 = ct := List.drop_left' hiv
  simp only [Decrypt, h1, h2, h3, Decrypt.additional_data, if_false]

theorem Decrypt_short (c : Cryptographer) (filePart f : List Byte) (b : Nat)
    (h : filePart.length < 12) :
    Decrypt c filePart f b = .error "slice bounds out of range" := by
  simp [Decrypt, h]

theorem littleEndianValue_idToBytes (id : Nat) :
    littleEndianValue (idToBytes id) = id % 2 ^ 64 := by
  have h : ∀ n : Nat, (UInt8.ofNat n).toNat = n % 256 := fun n => by
    simp [UInt8.ofNat, UInt8.toNat, Fin.ofNat, UInt8.size]
  simp only [idToBytes, littleEndianValue, h]
  omega

theorem length_idToBytes (id : Nat) : (idToBytes id).length = 8 := rfl

theorem idToBytes_injOn (b b' : Nat) (hb : b < 2 ^ 64) (hb' : b' < 2 ^ 64)
    (h : idToBytes b = idToBytes b') : b = b' := by
  have h1 := littleEndianValue_idToBytes b
  have h2 := littleEndianValue_idToBytes b'
  rw [h] at h1
  omega

theorem additional_data_inj (b b' : Nat) (f f' : List Byte) (hb : b < 2 ^ 64)
    (hb' : b' < 2 ^ 64) (h : idToBytes b ++ f = idToBytes b' ++ f') : b = b' ∧ f = f' := by
  have hlen : (idToBytes b).length = (idToBytes b').length := rfl
  obtain ⟨h1, h2⟩ := List.append_inj h hlen
  exact ⟨idToBytes_injOn b b' hb hb' h1, h2⟩

theorem tagCipher_tag_length (iv ad : List Byte) :
    ((iv ++ ad ++ List.replicate 16 0).take 16).length = 16 := by
  simp only [List.length_take, List.length_append, List.length_replicate]
  omega

theorem tagCipher_tagSize16 : tagCipher.TagSize16 := by
  intro iv p ad
  show (p ++ (iv ++ ad ++ List.replicate 16 (0 : Byte)).take 16).length = p.length + 16
  rw [List.length_append, tagCipher_tag_length]

theorem tagCipher_correct : tagCipher.Correct := by
  intro iv p ad _
  have hl := tagCipher_tag_length iv ad
  simp only [tagCipher]
  generalize (iv ++ ad ++ List.replicate 16 (0 : Byte)).take 16 = tag at hl
  have h1 : (p ++ tag).length - 16 = p.length := by simp [hl]
  have h2 : ¬ ((p ++ tag).length < 16) := by simp [hl]
  rw [h1, if_neg h2, List.drop_left, List.take_left, if_pos rfl]

theorem selfDelimit_prefix_free (ad' ad p : List Byte)
    (h : selfDelimit ad' <+: selfDelimit ad ++ p) : ad' = ad := by
  induction ad' generalizing ad with
  | nil =>
    cases ad with
    | nil => rfl
    | cons x xs =>
      simp only [selfDelimit, List.cons_append, List.cons_prefix_cons] at h
      exact absurd h.1 (by decide)
  | cons y ys ih =>
    cases ad with
    | nil =>
      simp only [selfDelimit, List.cons_append, List.cons_prefix_cons] at h
      exact absurd h.1 (by decide)
    | cons x xs =>
      simp only [selfDelimit, List.cons_append, List.cons_prefix_cons] at h
      obtain ⟨_, hxy, hrest⟩ := h
      rw [hxy, ih xs hrest]

theorem bindingCipher_correct : bindingCipher.Correct := by
  intro iv p ad _
  show (if (selfDelimit ad).isPrefixOf (selfDelimit ad ++ p) then
    some ((selfDelimit ad ++ p).drop (selfDelimit ad).length) else none) = some p
  have h : (selfDelimit ad).isPrefixOf (selfDelimit ad ++ p) = true :=
    List.isPrefixOf_iff_prefix.2 (List.prefix_append _ _)
  rw [h, if_pos rfl, List.drop_left]

theorem bindingCipher_binding : bindingCipher.Binding := by
  intro iv p ad ad' hne
  show (if (selfDelimit ad').isPrefixOf (selfDelimit ad ++ p) then
    some ((selfDelimit ad ++ p).drop (selfDelimit ad').length) else none) = none
  have h : ¬ ((selfDelimit ad').isPrefixOf (selfDelimit ad ++ p) = true) := by
    intro hp
    exact hne (selfDelimit_prefix_free ad' ad p (List.isPrefixOf_iff_prefix.1 hp)).symm
  rw [if_neg h]

theorem Decrypt_Encrypt_ok (c : Cryptographer) (hgcm : c.gcm.Correct) (p f : List Byte)
    (b : Nat) (rand : RandReader) : Decrypt c (Encrypt c p b f rand).1 f b = .ok p := by
  rw [Encrypt_fst, Decrypt_append c _ _ f b (rand.length_window 12),
    hgcm _ p _ (rand.length_window 12)]

/-- C3. For every valid key, with an AES-GCM whose `Open` inverts `Seal`, `Decrypt`
applied to the output of `Encrypt` under the same block index and file id returns
the plaintext, whatever the random source hands out for the IV; and a text cut in
two, sealed under the indices 1 and 2 with one file id, is recovered by
concatenating the two decryptions (the two tests of `encryption_test.go`). -/
theorem Decrypt_Encrypt_roundtrip (aesGCM : List Byte → AEAD)
    (hgcm : ∀ key, (aesGCM key).Correct) (key : List Byte) (c : Cryptographer)
    (hkey : InitEncrypter aesGCM key = .ok c)
    (p f text1 text2 : List Byte) (b : Nat) (rand rand1 rand2 : RandReader) :
    Decrypt c (Encrypt c p b f rand).1 f b = .ok p ∧
    (do
      let decrypted1 ← Decrypt c (Encrypt c text1 1 f rand1).1 f 1
      let decrypted2 ← Decrypt c (Encrypt c text2 2 f rand2).1 f 2
      pure (decrypted1 ++ decrypted2)) = (.ok (text1 ++ text2) : Except String (List Byte)) := by
  have hc : c.gcm.Correct := by
    unfold InitEncrypter at hkey
    split at hkey
    · cases hkey
      exact hgcm key
    · cases hkey
  refine ⟨Decrypt_Encrypt_ok c hc p f b rand, ?_⟩
  rw [Decrypt_Encrypt_ok c hc, Decrypt_Encrypt_ok c hc]
  rfl

theorem Decrypt_Encrypt_roundtrip_witness :
    (∀ key : List Byte, ((fun _ => tagCipher) key).Correct) ∧
    InitEncrypter (fun _ => tagCipher) (List.replicate 32 99) = .ok ⟨tagCipher⟩ ∧
    Decrypt ⟨tagCipher⟩ (Encrypt ⟨tagCipher⟩ [84, 101, 120, 116] 1 (List.replicate 16 7)
      ⟨fun i => UInt8.ofNat i, 0⟩).1 (List.replicate 16 7) 1 = .ok [84, 101, 120, 116] ∧
    (do
      let decrypted1 ← Decrypt ⟨tagCipher⟩ (Encrypt ⟨tagCipher⟩ [84, 101] 1
        (List.replicate 16 7) ⟨fun i => UInt8.ofNat i, 16⟩).1 (List.replicate 16 7) 1
      let decrypted2 ← Decrypt ⟨tagCipher⟩ (Encrypt ⟨tagCipher⟩ [120, 116] 2
        (List.replicate 16 7) ⟨fun i => UInt8.ofNat i, 28⟩).1 (List.replicate 16 7) 2
      pure (decrypted1 ++ decrypted2))
      = (.ok ([84, 101] ++ [120, 116]) : Except String (List Byte)) :=
  ⟨fun _ => tagCipher_correct, rfl,
    Decrypt_Encrypt_roundtrip (fun _ => tagCipher) (fun _ => tagCipher_correct)
      (List.replicate 32 99) ⟨tagCipher⟩ rfl [84, 101, 120, 116]
      (List.replicate 16 7) [84, 101] [120, 116] 1 ⟨fun i => UInt8.ofNat i, 0⟩
      ⟨fun i => UInt8.ofNat i, 16⟩ ⟨fun i => UInt8.ofNat i, 28⟩⟩

/-- C4. For block indices below `2^64`, the associated data that `Decrypt` builds
for `(b', f')` differs from the one `Encrypt` built for `(b, f)` whenever the two
pairs differ; hence, with a cipher that opens only under the exact associated
data of the seal, `Decrypt` of a block sealed for `(b, f)` fails under `(b', f')`. -/
theorem Decrypt_other_position_fails (c : Cryptographer) (hbind : c.gcm.Binding)
    (b b' : Nat) (f f' p : List Byte) (rand : RandReader)
    (hb : b < 2 ^ 64) (hb' : b' < 2 ^ 64) (hne : (b, f) ≠ (b', f')) :
    Decrypt.additional_data b' f' ≠ Encrypt.additional_data b f ∧
    Decrypt c (Encrypt c p b f rand).1 f' b'
      = .error "cipher: message authentication failed" := by
  have had : idToBytes b ++ f ≠ idToBytes b' ++ f' := by
    intro h
    obtain ⟨h1, h2⟩ := additional_data_inj b b' f f' hb hb' h
    exact hne (by rw [h1, h2])
  refine ⟨?_, ?_⟩
  · rw [Encrypt.additional_data_eq, Decrypt.additional_data]
    exact fun h => had h.symm
  · rw [Encrypt_fst, Decrypt_append c _ _ f' b' (rand.length_window 12),
      hbind _ p _ _ had]

theorem Decrypt_other_position_fails_witness :
    bindingCipher.Binding ∧ (0 : Nat) < 2 ^ 64 ∧ (1 : Nat) < 2 ^ 64 ∧
    ((0 : Nat), List.replicate 16 (7 : Byte)) ≠ ((1 : Nat), List.replicate 16 (7 : Byte)) ∧
    Decrypt.additional_data 1 (List.replicate 16 7)
      ≠ Encrypt.additional_data 0 (List.replicate 16 7) ∧
    Decrypt ⟨bindingCipher⟩ (Encrypt ⟨bindingCipher⟩ [84, 101, 120, 116] 0
      (List.replicate 16 7) ⟨fun i => UInt8.ofNat i, 0⟩).1 (List.replicate 16 7) 1
      = .error "cipher: message authentication failed" :=
  ⟨bindingCipher_binding, by decide, by decide, by decide,
    Decrypt_other_position_fails ⟨bindingCipher⟩ bindingCipher_binding 0 1
      (List.replicate 16 7) (List.replicate 16 7) [84, 101, 120, 116]
      ⟨fun i => UInt8.ofNat i, 0⟩ (by decide) (by decide) (by decide)⟩

/-- C9. `Encrypt p b f` is the 12 bytes it drew from the random source followed
by the seal of `p` under that IV, with associated data the eight little-endian
bytes of `b` followed by `f` (24 bytes for a 16-byte file id); with a 16-byte tag
its length is `len p + 28`, which is `len p + getEncryptionOverhead()`. -/
theorem Encrypt_layout (c : Cryptographer) (htag : c.gcm.TagSize16) (p f : List Byte)
    (b : Nat) (rand : RandReader) (hf : f.length = 16) :
    (Encrypt c p b f rand).1
      = (GenerateIV 12 rand).1
        ++ c.gcm.Seal (GenerateIV 12 rand).1 p (Encrypt.additional_data b f) ∧
    (GenerateIV 12 rand).1.length = 12 ∧
    Encrypt.additional_data b f = idToBytes b ++ f ∧
    (idToBytes b).length = 8 ∧
    littleEndianValue (idToBytes b) = b % 2 ^ 64 ∧
    (Encrypt.additional_data b f).length = 24 ∧
    (Encrypt c p b f rand).1.length = p.length + 28 ∧
    (Encrypt c p b f rand).1.length = p.length + getEncryptionOverhead := by
  have hlen : (Encrypt c p b f rand).1.length = p.length + 28 := by
    rw [Encrypt_fst, List.length_append, htag, rand.length_window]
    omega
  refine ⟨rfl, GenerateIV_length 12 rand, Encrypt.additional_data_eq b f,
    length_idToBytes b, littleEndianValue_idToBytes b, ?_, hlen, ?_⟩
  · rw [Encrypt.additional_data_eq, List.length_append, length_idToBytes, hf]
  · rw [hlen, getEncryptionOverhead]

theorem Encrypt_layout_witness :
    tagCipher.TagSize16 ∧ (List.replicate 16 (7 : Byte)).length = 16 ∧
    (Encrypt ⟨tagCipher⟩ [84, 101, 120, 116] 258 (List.replicate 16 7)
      ⟨fun i => UInt8.ofNat i, 0⟩).1.length = [84, 101, 120, 116].length + 28 ∧
    littleEndianValue (idToBytes 258) = 258 % 2 ^ 64 :=
  have h := Encrypt_layout ⟨tagCipher⟩ tagCipher_tagSize16 [84, 101, 120, 116]
    (List.replicate 16 7) 258 ⟨fun i => UInt8.ofNat i, 0⟩ (by decide)
  ⟨tagCipher_tagSize16, by decide, h.2.2.2.2.2.2.1, h.2.2.2.2.1⟩

/-! ## Theorems: parseChunkSize -/

theorem Regexp.digitsScaleB_append (ds rest g : List Char)
    (hds : ∀ c ∈ ds, isDigit c = true)
    (hrest : Regexp.digitsScaleB rest = some ([], g)) :
    Regexp.digitsScaleB (ds ++ rest) = some (ds, g) := by
  induction ds with
  | nil => exact hrest
  | cons c cs ih =>
    have hc : isDigit c = true := hds c (List.mem_cons_self c cs)
    have hcs := ih (fun x hx => hds x (List.mem_cons_of_mem c hx))
    simp only [List.cons_append, Regexp.digitsScaleB, hc, if_true, List.append_eq, hcs]

theorem FindStringSubmatch_digits (ds rest g : List Char) (hne : ds ≠ [])
    (hds : ∀ c ∈ ds, isDigit c = true)
    (hrest : Regexp.digitsScaleB rest = some ([], g)) :
    FindStringSubmatch (ds ++ rest) = some (ds, g) := by
  cases ds with
  | nil => exact absurd rfl hne
  | cons c cs =>
    have hc : isDigit c = true := hds c (List.mem_cons_self c cs)
    have hcs := Regexp.digitsScaleB_append cs rest g
      (fun x hx => hds x (List.mem_cons_of_mem c hx)) hrest
    simp only [List.cons_append, FindStringSubmatch, Regexp.matchHere, hc, if_true,
      List.append_eq, hcs, Option.map_some']

theorem Atoi_digits (ds : List Char) (hne : ds ≠ []) (hds : ∀ c ∈ ds, isDigit c = true)
    (hv : decimalValue ds < 2 ^ 63) : Atoi ds = .ok (decimalValue ds : Int) := by
  have hall : ds.all isDigit = true := List.all_eq_true.2 hds
  have hemp : ds.isEmpty = false := by
    cases ds with
    | nil => exact absurd rfl hne
    | cons c cs => rfl
  unfold Atoi
  split
  · rename_i t
    exact absurd (hds '-' (List.mem_cons_self _ _)) (by decide)
  · rename_i t
    exact absurd (hds '+' (List.mem_cons_self _ _)) (by decide)
  · simp only [hall, hemp, Bool.not_true, Bool.or_self, Bool.false_eq_true, if_false, if_pos hv]

theorem roundToFloat64_exact (n : Nat) (h : n ≤ 2 ^ 53) : roundToFloat64 n = n := by
  rcases Nat.lt_or_ge n (2 ^ 53) with h1 | h1
  · unfold roundToFloat64
    rw [if_pos h1]
  · have : n = 2 ^ 53 := Nat.le_antisymm h h1
    subst this
    decide

theorem float64OfInt_exact (n : Nat) (h : n ≤ 2 ^ 53) : float64OfInt (n : Int) = n := by
  simp [float64OfInt, roundToFloat64_exact n h]

theorem float64Mul_exact (a b : Nat) (h : a * b ≤ 2 ^ 53) :
    float64Mul (a : Int) (b : Int) = ((a * b : Nat) : Int) := by
  unfold float64Mul
  rw [← Int.natCast_mul, float64OfInt_exact _ h]

theorem uint64OfFloat64_exact (overflow : Int → Nat) (n : Nat) (h : n ≤ 2 ^ 53) :
    uint64OfFloat64 overflow (n : Int) = n := by
  have h2 : (0 : Int) ≤ n ∧ (n : Int) < 2 ^ 64 := by
    constructor
    · exact Int.natCast_nonneg n
    · have : n < 2 ^ 64 := by omega
      exact_mod_cast this
  unfold uint64OfFloat64
  rw [if_pos h2, Int.toNat_natCast]

theorem unitMultiplier_pos (u : String) : 1 ≤ unitMultiplier u := by
  unfold unitMultiplier
  split_ifs <;> decide

theorem parseChunkSize.fac_unit (u : String) (hu : u ∈ ["", "K", "M", "G", "T", "P"]) :
    parseChunkSize.fac u = (unitMultiplier u : Int) := by
  simp only [List.mem_cons, List.mem_singleton, List.not_mem_nil, or_false] at hu
  rcases hu with h | h | h | h | h | h <;> subst h <;> decide

/-- C10, as the code has it. For a non-empty string of decimal digits `d` and a
unit `u` among "", K, M, G, T, P whose product `value d * multiplier u` is at
most `2^53`, `parseChunkSize (d ++ u ++ "B")` succeeds and returns exactly that
product: `strconv.Atoi` accepts the digits and the float64 arithmetic is exact up
to `2^53`. -/
theorem parseChunkSize_exact (overflow : Int → Nat) (d u : String)
    (hne : d.toList ≠ []) (hdig : ∀ c ∈ d.toList, isDigit c = true)
    (hu : u ∈ ["", "K", "M", "G", "T", "P"])
    (hv : decimalValue d.toList * unitMultiplier u ≤ 2 ^ 53) :
    parseChunkSize overflow (d ++ u ++ "B")
      = .ok (decimalValue d.toList * unitMultiplier u) := by
  have hlist : (d ++ u ++ "B").toList = d.toList ++ (u.toList ++ ['B']) := by
    simp [String.toList]
  have hd53 : decimalValue d.toList ≤ 2 ^ 53 :=
    Nat.le_trans (Nat.le_mul_of_pos_right _ (unitMultiplier_pos u)) hv
  have hatoi := Atoi_digits d.toList hne hdig (by omega)
  have hrest : Regexp.digitsScaleB (u.toList ++ ['B']) = some ([], u.toList) := by
    simp only [List.mem_cons, List.mem_singleton, List.not_mem_nil, or_false] at hu
    rcases hu with h | h | h | h | h | h <;> subst h <;> decide
  have hfind := FindStringSubmatch_digits d.toList (u.toList ++ ['B']) u.toList hne hdig hrest
  have hmk : String.mk u.toList = u := rfl
  unfold parseChunkSize
  rw [hlist, hfind]
  simp only [hatoi, hmk, float64OfInt_exact _ hd53, parseChunkSize.fac_unit u hu,
    float64Mul_exact _ _ hv, uint64OfFloat64_exact overflow _ hv]

theorem parseChunkSize_exact_witness :
    "512".toList ≠ [] ∧ (∀ c ∈ "512".toList, isDigit c = true) ∧
    "K" ∈ ["", "K", "M", "G", "T", "P"] ∧
    decimalValue "512".toList * unitMultiplier "K" ≤ 2 ^ 53 ∧
    parseChunkSize (fun _ => 0) ("512" ++ "K" ++ "B")
      = .ok (decimalValue "512".toList * unitMultiplier "K") ∧
    decimalValue "512".toList * unitMultiplier "K" = 512000 :=
  ⟨by decide, by decide, by decide, by decide,
    parseChunkSize_exact (fun _ => 0) "512" "K" (by decide) (by decide) (by decide) (by decide),
    by decide⟩

/-- C10 fails as stated. The digits of `2^53 + 1` with the unit "" denote a
value below `2^64`, yet `parseChunkSize` returns `2^53`: the value passes through
a float64. And the digits of `2^63`, also below `2^64`, make `strconv.Atoi` fail,
so no size is returned at all. -/
theorem parseChunkSize_inexact_above_2_53 :
    decimalValue "9007199254740993".toList * unitMultiplier "" < 2 ^ 64 ∧
    parseChunkSize (fun _ => 0) ("9007199254740993" ++ "" ++ "B") = .ok 9007199254740992 ∧
    parseChunkSize (fun _ => 0) ("9007199254740993" ++ "" ++ "B")
      ≠ .ok (decimalValue "9007199254740993".toList * unitMultiplier "") ∧
    decimalValue "9223372036854775808".toList * unitMultiplier "" < 2 ^ 64 ∧
    parseChunkSize (fun _ => 0) ("9223372036854775808" ++ "" ++ "B")
      = .error "Cant convert to integer" := by
  refine ⟨by decide, by decide, by decide, by decide, by decide⟩

/-! ## Theorems: the two pipelines -/

theorem Reader.Read_drained (eager : Bool) (p : List Byte) :
    (Reader.mk [] eager).Read p
      = { n := 0, eof := true, buf := p, reader := Reader.mk [] eager } := rfl

theorem Reader.ofBytes_nil (eager : Bool) : Reader.ofBytes [] eager = Reader.mk [] eager := rfl

theorem Reader.ofBytes_ne_nil (P : List Byte) (eager : Bool) (h : P ≠ []) :
    Reader.ofBytes P eager = Reader.mk [P] eager := by
  cases P with
  | nil => exact absurd rfl h
  | cons x xs => rfl

theorem Reader.Read_ofBytes (P p : List Byte) (eager : Bool) (h : P ≠ []) :
    (Reader.ofBytes P eager).Read p
      = { n := min p.length P.length
          eof := eager && decide (P.length ≤ p.length)
          buf := P.take (min p.length P.length) ++ p.drop (min p.length P.length)
          reader := Reader.ofBytes (P.drop p.length) eager } := by
  rw [Reader.ofBytes_ne_nil P eager h]
  by_cases hle : P.length ≤ p.length
  · have hd : P.drop p.length = [] := List.drop_eq_nil_of_le hle
    simp [Reader.Read, hle, hd, Reader.ofBytes]
  · have hd : P.drop p.length ≠ [] := by
      intro h0
      exact hle (List.drop_eq_nil_iff.1 h0)
    have hmin : min p.length P.length = p.length := by omega
    rw [Reader.ofBytes_ne_nil _ eager hd]
    simp [Reader.Read, hle, hmin]

theorem readDecryptWrite.loop_drained (c : Cryptographer) (fileId outBuf : List Byte)
    (fuel blockId : Nat) (eager : Bool) :
    readDecryptWrite.loop c fileId (fuel + 1) (Reader.mk [] eager) outBuf blockId
      = some (.error "slice bounds out of range") := by
  simp [readDecryptWrite.loop, Reader.Read_drained, Decrypt]

/-- An object that holds the 16-byte file id and no sealed block makes
`readDecryptWrite` panic: the first read of the block loop returns zero bytes,
and `Decrypt` slices `outBuf[:0]` at 12. -/
theorem readDecryptWrite_header_only (c : Cryptographer) (obj : List Byte) (eager : Bool)
    (h : obj.length ≤ 16) :
    readDecryptWrite c (Reader.ofBytes obj eager)
      = some (.error "slice bounds out of range") := by
  by_cases h0 : obj = []
  · subst h0
    simp only [readDecryptWrite, Reader.ofBytes_nil, Reader.Read_drained]
    exact readDecryptWrite.loop_drained c _ _ _ _ _
  · have hd : obj.drop (List.replicate 16 (0 : Byte)).length = [] :=
      List.drop_eq_nil_of_le (by simpa using h)
    simp only [readDecryptWrite, Reader.Read_ofBytes obj _ eager h0, hd, Reader.ofBytes_nil]
    exact readDecryptWrite.loop_drained c _ _ _ _ _

theorem readEncryptWrite_empty (c : Cryptographer) (rand : RandReader) (eager : Bool) :
    readEncryptWrite c (Reader.ofBytes [] eager) rand
      = some ([(GenerateIV 16 rand).1], Reader.mk [] eager, (GenerateIV 16 rand).2) := by
  simp [readEncryptWrite, Reader.ofBytes_nil, Reader.size, readEncryptWrite.loop,
    Reader.Read_drained]

/-- C1 at the empty plaintext. For every cipher, every random source and either
way of reporting `io.EOF`, `readEncryptWrite` writes the 16-byte file id alone
for the empty plaintext, and `readDecryptWrite` fed with it panics instead of
writing the empty plaintext and closing. -/
theorem nonChunkedRoundTrip_empty_panics (c : Cryptographer) (rand : RandReader)
    (eagerFile eagerObject : Bool) :
    nonChunkedRoundTrip c [] rand eagerFile eagerObject
      = some (.error "slice bounds out of range") := by
  have h16 : [(GenerateIV 16 rand).1].flatten.length ≤ 16 := by
    simp [GenerateIV_length]
  simp only [nonChunkedRoundTrip, readEncryptWrite_empty,
    readDecryptWrite_header_only c _ eagerObject h16]

theorem numBlocks_zero : numBlocks 0 = 0 := by decide

theorem numBlocks_pos (L : Nat) (h : 0 < L) :
    numBlocks L = numBlocks (L - BUFFER_SIZE) + 1 := by
  simp only [numBlocks, BUFFER_SIZE]
  omega

theorem numBlocks_le_self (L : Nat) : numBlocks L ≤ L := by
  simp only [numBlocks, BUFFER_SIZE]
  omega

theorem sealBlocks_succ (c : Cryptographer) (fileId P : List Byte) (k nextBlock : Nat)
    (rand : RandReader) :
    sealBlocks c fileId (k + 1) P nextBlock rand
      = (Encrypt c (P.take BUFFER_SIZE) nextBlock fileId rand).1
        :: sealBlocks c fileId k (P.drop BUFFER_SIZE) (nextBlock + 1)
            { rand with pos := rand.pos + 12 } := rfl

/-- The block loop of `readEncryptWrite` over a stream that reports `io.EOF` on
the read after the last byte: it seals `numBlocks` blocks and stops. -/
theorem readEncryptWrite.loop_stream (c : Cryptographer) (fileId : List Byte) (fuel : Nat) :
    ∀ (P outBuf : List Byte) (nextBlock : Nat) (rand : RandReader),
      outBuf.length = BUFFER_SIZE → numBlocks P.length < fuel →
      readEncryptWrite.loop c fileId fuel (Reader.ofBytes P false) outBuf nextBlock rand
        = some (sealBlocks c fileId (numBlocks P.length) P nextBlock rand,
            Reader.mk [] false,
            { rand with pos := rand.pos + 12 * numBlocks P.length }) := by
  induction fuel with
  | zero => intro P outBuf nextBlock rand _ h; exact absurd h (Nat.not_lt_zero _)
  | succ fuel ih =>
    intro P outBuf nextBlock rand hbuf hfuel
    by_cases h0 : P = []
    · subst h0
      simp [readEncryptWrite.loop, Reader.ofBytes_nil, Reader.Read_drained, numBlocks_zero,
        sealBlocks]
    · have hpos : 0 < P.length := List.length_pos.2 h0
      have hk := numBlocks_pos P.length hpos
      have hmin : min outBuf.length P.length ≠ 0 := by
        rw [hbuf]; simp only [BUFFER_SIZE]; omega
      have htake : (P.take (min outBuf.length P.length)
          ++ outBuf.drop (min outBuf.length P.length)).take (min outBuf.length P.length)
          = P.take BUFFER_SIZE := by
        rw [List.take_left' (by simp), hbuf, List.take_eq_take]
        simp
      have hbuf1 : (P.take (min outBuf.length P.length)
          ++ outBuf.drop (min outBuf.length P.length)).length = BUFFER_SIZE := by
        simp only [List.length_append, List.length_take, List.length_drop]
        omega
      have hfuel1 : numBlocks (P.drop BUFFER_SIZE).length < fuel := by
        rw [List.length_drop]; omega
      have hrec := ih (P.drop BUFFER_SIZE) _ (nextBlock + 1)
        (Encrypt c (P.take BUFFER_SIZE) nextBlock fileId rand).2 hbuf1 hfuel1
      rw [readEncryptWrite.loop]
      simp only [Reader.Read_ofBytes P outBuf false h0, Bool.false_and, Bool.false_or,
        beq_iff_eq, hmin, if_false, htake]
      have hdrop : P.drop outBuf.length = P.drop BUFFER_SIZE := by rw [hbuf]
      have hpos12 : ∀ k : Nat, rand.pos + 12 + 12 * k = rand.pos + 12 * (k + 1) := by
        intro k; omega
      rw [hdrop, hrec, hk, sealBlocks_succ, Encrypt_snd, List.length_drop, hpos12]

theorem plainBlock_eq (P : List Byte) (i : Nat) :
    plainBlock P i = (P.drop (BUFFER_SIZE * i)).take BUFFER_SIZE := by
  rw [plainBlock, List.drop_take, List.take_eq_take, List.length_drop]
  rw [Nat.mul_succ]
  omega

theorem sealBlocks_eq_map (c : Cryptographer) (fileId : List Byte) (k : Nat) :
    ∀ (P : List Byte) (nextBlock : Nat) (rand : RandReader),
      sealBlocks c fileId k P nextBlock rand
        = (List.range k).map (fun i =>
            (Encrypt c (plainBlock P i) (nextBlock + i) fileId
              { rand with pos := rand.pos + 12 * i }).1) := by
  induction k with
  | zero => intro P nextBlock rand; rfl
  | succ k ih =>
    intro P nextBlock rand
    rw [sealBlocks_succ, ih, List.range_succ_eq_map, List.map_cons, List.map_map]
    congr 1
    · rw [plainBlock_eq, Nat.mul_zero, List.drop_zero]
      rfl
    · apply List.map_congr_left
      intro i _
      simp only [Function.comp, plainBlock_eq, List.drop_drop, Nat.succ_eq_add_one]
      have h1 : BUFFER_SIZE + BUFFER_SIZE * i = BUFFER_SIZE * (i + 1) := by
        rw [Nat.mul_succ, Nat.add_comm]
      have h2 : nextBlock + 1 + i = nextBlock + (i + 1) := by omega
      have h3 : rand.pos + 12 + 12 * i = rand.pos + 12 * (i + 1) := by omega
      rw [h1, h2, h3]

theorem sealBlocks_flatten_length (c : Cryptographer) (htag : c.gcm.TagSize16)
    (fileId : List Byte) (k : Nat) :
    ∀ (P : List Byte) (nextBlock : Nat) (rand : RandReader), numBlocks P.length = k →
      (sealBlocks c fileId k P nextBlock rand).flatten.length = P.length + 28 * k := by
  induction k with
  | zero =>
    intro P nextBlock rand hk
    have : P.length = 0 := by
      simp only [numBlocks, BUFFER_SIZE] at hk
      omega
    rw [this]
    rfl
  | succ k ih =>
    intro P nextBlock rand hk
    have hpos : 0 < P.length := by
      rcases Nat.eq_zero_or_pos P.length with h | h
      · rw [h, numBlocks_zero] at hk
        exact absurd hk (Nat.succ_ne_zero k).symm
      · exact h
    have hk1 : numBlocks (P.drop BUFFER_SIZE).length = k := by
      have := numBlocks_pos P.length hpos
      rw [List.length_drop]
      omega
    rw [sealBlocks_succ, List.flatten_cons, List.length_append, ih _ _ _ hk1, Encrypt_fst,
      List.length_append, htag, rand.length_window, List.length_take, List.length_drop]
    omega

theorem Reader.size_ofBytes (P : List Byte) (eager : Bool) :
    numBlocks P.length < (Reader.ofBytes P eager).size + 1 := by
  by_cases h0 : P = []
  · subst h0
    rw [List.length_nil, numBlocks_zero]
    exact Nat.succ_pos _
  · have := numBlocks_le_self P.length
    rw [Reader.ofBytes_ne_nil P eager h0]
    simp only [Reader.size, List.foldr]
    omega

theorem readEncryptWrite_stream (c : Cryptographer) (P : List Byte) (rand : RandReader) :
    readEncryptWrite c (Reader.ofBytes P false) rand
      = some ((GenerateIV 16 rand).1
            :: sealBlocks c (GenerateIV 16 rand).1 (numBlocks P.length) P 0 (GenerateIV 16 rand).2,
          Reader.mk [] false,
          { rand with pos := rand.pos + 16 + 12 * numBlocks P.length }) := by
  have hloop := readEncryptWrite.loop_stream c (GenerateIV 16 rand).1
    ((Reader.ofBytes P false).size + 1) P (List.replicate BUFFER_SIZE 0) 0 (GenerateIV 16 rand).2
    (List.length_replicate _ _) (Reader.size_ofBytes P false)
  rw [readEncryptWrite, hloop]
  rfl

/-- C8. For a plaintext `P` of length `L` read from a stream that serves full
reads and reports `io.EOF` after the last byte, `readEncryptWrite` succeeds and
writes the 16-byte file id followed by exactly `k = ⌈L / 16384⌉` sealed blocks,
block `i` being `Encrypt` of `P[16384*i : min(16384*(i+1), L)]` under block index
`i` and that file id; with a 16-byte tag the stream is `16 + 28*k + L` bytes long.
For `L = 50000` that is 4 blocks, the last of 848 plaintext bytes, and 50128
bytes. -/
theorem readEncryptWrite_framing (c : Cryptographer) (htag : c.gcm.TagSize16)
    (P : List Byte) (rand : RandReader) :
    ∃ written : List (List Byte),
      readEncryptWrite c (Reader.ofBytes P false) rand
        = some (written, Reader.mk [] false,
            { rand with pos := rand.pos + 16 + 12 * numBlocks P.length }) ∧
      written = (GenerateIV 16 rand).1
        :: (List.range (numBlocks P.length)).map (fun i =>
            (Encrypt c (plainBlock P i) i (GenerateIV 16 rand).1
              { rand with pos := rand.pos + 16 + 12 * i }).1) ∧
      (GenerateIV 16 rand).1.length = 16 ∧
      written.length = numBlocks P.length + 1 ∧
      written.flatten.length = 16 + 28 * numBlocks P.length + P.length ∧
      (P.length = 50000 →
        numBlocks P.length = 4 ∧ (plainBlock P 3).length = 848 ∧
        written.flatten.length = 50128) := by
  have hmap := sealBlocks_eq_map c (GenerateIV 16 rand).1 (numBlocks P.length) P 0
    (GenerateIV 16 rand).2
  have hflat := sealBlocks_flatten_length c htag (GenerateIV 16 rand).1 (numBlocks P.length)
    P 0 (GenerateIV 16 rand).2 rfl
  have hlen : ((GenerateIV 16 rand).1
      :: sealBlocks c (GenerateIV 16 rand).1 (numBlocks P.length) P 0
          (GenerateIV 16 rand).2).flatten.length = 16 + 28 * numBlocks P.length + P.length := by
    rw [List.flatten_cons, List.length_append, hflat, GenerateIV_length]
    omega
  refine ⟨_, readEncryptWrite_stream c P rand, ?_, GenerateIV_length 16 rand, ?_, hlen, ?_⟩
  · rw [hmap]
    congr 1
    apply List.map_congr_left
    intro i _
    simp only [GenerateIV, Nat.zero_add, Nat.add_assoc]
  · rw [hmap, List.length_cons, List.length_map, List.length_range]
  · intro hL
    have hk : numBlocks P.length = 4 := by rw [hL]; decide
    refine ⟨hk, ?_, ?_⟩
    · rw [plainBlock_eq, List.length_take, List.length_drop, hL]
      decide
    · rw [hlen, hk, hL]

theorem readEncryptWrite_framing_witness :
    tagCipher.TagSize16 ∧
    ∃ written : List (List Byte),
      readEncryptWrite ⟨tagCipher⟩ (Reader.ofBytes [72, 105] false) ⟨fun i => UInt8.ofNat i, 0⟩
        = some (written, Reader.mk [] false,
            { (⟨fun i => UInt8.ofNat i, 0⟩ : RandReader) with
              pos := 0 + 16 + 12 * numBlocks [(72 : Byte), 105].length }) ∧
      written = (GenerateIV 16 ⟨fun i => UInt8.ofNat i, 0⟩).1
        :: (List.range (numBlocks [(72 : Byte), 105].length)).map (fun i =>
            (Encrypt ⟨tagCipher⟩ (plainBlock [72, 105] i) i
              (GenerateIV 16 ⟨fun i => UInt8.ofNat i, 0⟩).1
              { (⟨fun i => UInt8.ofNat i, 0⟩ : RandReader) with pos := 0 + 16 + 12 * i }).1) ∧
      (GenerateIV 16 ⟨fun i => UInt8.ofNat i, 0⟩).1.length = 16 ∧
      written.length = numBlocks [(72 : Byte), 105].length + 1 ∧
      written.flatten.length
        = 16 + 28 * numBlocks [(72 : Byte), 105].length + [(72 : Byte), 105].length ∧
      ([(72 : Byte), 105].length = 50000 →
        numBlocks [(72 : Byte), 105].length = 4 ∧ (plainBlock [72, 105] 3).length = 848 ∧
        written.flatten.length = 50128) :=
  ⟨tagCipher_tagSize16,
    readEncryptWrite_framing ⟨tagCipher⟩ tagCipher_tagSize16 [72, 105]
      ⟨fun i => UInt8.ofNat i, 0⟩⟩

/-! ## Theorems: the ordered parallel download -/

/-- How many of the indices below `i` belong to routine `j`. -/
theorem GetFileFromIDHandler.count_eq (C N j : Nat) :
    GetFileFromIDHandler.count C N j = C / N + (if C % N > j then 1 else 0) := by
  have h : C - C / N * N = C % N := by
    have := Nat.div_add_mod C N
    rw [Nat.mul_comm] at this
    omega
  simp only [GetFileFromIDHandler.count, h]
  split_ifs <;> rfl

theorem succ_div_mod (i N : Nat) (hN : 0 < N) :
    (i % N + 1 < N ∧ (i + 1) / N = i / N ∧ (i + 1) % N = i % N + 1) ∨
    (i % N + 1 = N ∧ (i + 1) / N = i / N + 1 ∧ (i + 1) % N = 0) := by
  have hdm := Nat.div_add_mod i N
  have hlt := Nat.mod_lt i hN
  rcases Nat.lt_or_ge (i % N + 1) N with h | h
  · left
    refine ⟨h, ?_⟩
    exact (Nat.div_mod_unique hN).2 ⟨by omega, h⟩
  · right
    have hN1 : i % N + 1 = N := by omega
    refine ⟨hN1, ?_⟩
    refine (Nat.div_mod_unique hN).2 ⟨?_, hN⟩
    rw [Nat.mul_succ]
    omega

theorem deliveredFrom_succ (N i j : Nat) (hN : 0 < N) (hj : j < N) :
    deliveredFrom N (i + 1) j = deliveredFrom N i j + (if j = i % N then 1 else 0) := by
  unfold deliveredFrom
  rcases succ_div_mod i N hN with ⟨h1, h2, h3⟩ | ⟨h1, h2, h3⟩
  · rw [h2, h3]
    split_ifs <;> omega
  · rw [h2, h3]
    split_ifs <;> omega

theorem deliveredFrom_self (N i : Nat) : deliveredFrom N i (i % N) = i / N := by
  simp [deliveredFrom]

theorem deliveredFrom_all (C N j : Nat) :
    deliveredFrom N C j = GetFileFromIDHandler.count C N j := by
  rw [GetFileFromIDHandler.count_eq]
  rfl

theorem div_lt_count (C N i : Nat) (hi : i < C) :
    i / N < GetFileFromIDHandler.count C N (i % N) := by
  rw [GetFileFromIDHandler.count_eq]
  have h1 := Nat.div_add_mod i N
  have h2 := Nat.div_add_mod C N
  have h3 : i / N ≤ C / N := Nat.div_le_div_right (Nat.le_of_lt hi)
  rcases Nat.lt_or_ge (i / N) (C / N) with h | h
  · omega
  · have h4 : i / N = C / N := Nat.le_antisymm h3 h
    rw [h4] at h1
    have h5 : i % N < C % N := by omega
    rw [h4, if_pos h5]
    omega

theorem retrieveAllChunks.length_chunkIds (id N count : Nat) :
    (retrieveAllChunks.chunkIds id N count).length = count := by
  simp [retrieveAllChunks.chunkIds]

theorem retrieveAllChunks.drop_chunkIds (id N count k : Nat) (hk : k < count) :
    (retrieveAllChunks.chunkIds id N count).drop k
      = (k * N + id) :: (retrieveAllChunks.chunkIds id N count).drop (k + 1) := by
  have hlen : k < (retrieveAllChunks.chunkIds id N count).length := by
    rw [retrieveAllChunks.length_chunkIds]; exact hk
  rw [List.drop_eq_getElem_cons hlen]
  simp [retrieveAllChunks.chunkIds]

theorem set_map_range {β : Type} (N r : Nat) (f : Nat → β) (v : β) :
    ((List.range N).map f).set r v = (List.range N).map (fun j => if j = r then v else f j) := by
  apply List.ext_getElem
  · simp
  · intro n h1 h2
    simp only [List.length_set, List.length_map, List.length_range] at h1
    rw [List.getElem_set]
    simp only [List.getElem_map, List.getElem_range]
    by_cases h : r = n
    · simp [h]
    · have h' : ¬ n = r := fun e => h e.symm
      simp [h, h']

theorem channelsAfter_succ (content : Nat → List Byte) (written : List (List Byte))
    (C N i : Nat) (hN : 0 < N) (hi : i < C) :
    GetFileFromIDHandler.deliverStep N (some (channelsAfter content C N i, written)) i
      = some (channelsAfter content C N (i + 1), written ++ [content i]) := by
  have hr : i % N < N := Nat.mod_lt i hN
  have hk := div_lt_count C N i hi
  have hdm : i / N * N + i % N = i := by
    have := Nat.div_add_mod i N
    rw [Nat.mul_comm] at this
    exact this
  have hget : (channelsAfter content C N i).get? (i % N)
      = some (content i ::
          ((retrieveAllChunks.chunkIds (i % N) N (GetFileFromIDHandler.count C N (i % N))).drop
            (i / N + 1)).map content) := by
    rw [List.get?_eq_getElem?, channelsAfter, List.getElem?_map, List.getElem?_range hr,
      Option.map_some', deliveredFrom_self, retrieveAllChunks.drop_chunkIds _ _ _ _ hk,
      List.map_cons, hdm]
  unfold GetFileFromIDHandler.deliverStep
  simp only [hget]
  congr 2
  rw [channelsAfter, set_map_range, channelsAfter]
  apply List.map_congr_left
  intro j hj
  have hjN : j < N := List.mem_range.1 hj
  rw [deliveredFrom_succ N i j hN hjN]
  by_cases h : j = i % N
  · rw [if_pos h, if_pos h, h, deliveredFrom_self]
  · rw [if_neg h, if_neg h, Nat.add_zero]

theorem deliver_rounds (content : Nat → List Byte) (C N : Nat) (hN : 0 < N) :
    ∀ i, i ≤ C →
      (List.range i).foldl (GetFileFromIDHandler.deliverStep N)
          (some (channelsAfter content C N 0, []))
        = some (channelsAfter content C N i, (List.range i).map content) := by
  intro i
  induction i with
  | zero => intro _; rfl
  | succ i ih =>
    intro hi
    rw [List.range_succ, List.foldl_append, ih (Nat.le_of_succ_le hi), List.foldl_cons,
      List.foldl_nil, channelsAfter_succ content _ C N i hN hi, List.map_append, List.map_cons,
      List.map_nil]

theorem channelsAfter_zero (content : Nat → List Byte) (C N : Nat) :
    channelsAfter content C N 0
      = (List.range N).map (fun j =>
          (retrieveAllChunks.chunkIds j N (GetFileFromIDHandler.count C N j)).map content) := by
  unfold channelsAfter
  apply List.map_congr_left
  intro j _
  have : deliveredFrom N 0 j = 0 := by simp [deliveredFrom]
  rw [this, List.drop_zero]

theorem channelsAfter_all (content : Nat → List Byte) (C N : Nat) :
    channelsAfter content C N C = List.replicate N [] := by
  unfold channelsAfter
  rw [List.eq_replicate_iff]
  refine ⟨by simp, ?_⟩
  intro q hq
  obtain ⟨j, _, rfl⟩ := List.mem_map.1 hq
  rw [deliveredFrom_all, List.drop_eq_nil_of_le (by rw [retrieveAllChunks.length_chunkIds])]
  rfl

/-- The ordered delivery: when routine `j` of `N` sends the contents of its chunk
indices in order, the delivery writes the contents of the chunks `0, ..., C-1` in
that order and leaves every channel empty. -/
theorem GetFileFromIDHandler.deliver_ordered (content : Nat → List Byte) (C N : Nat)
    (hN : 0 < N) :
    GetFileFromIDHandler.deliver N C
        ((List.range N).map (fun j =>
          (retrieveAllChunks.chunkIds j N (GetFileFromIDHandler.count C N j)).map content))
      = some (List.replicate N [], (List.range C).map content) := by
  rw [GetFileFromIDHandler.deliver, ← channelsAfter_zero,
    deliver_rounds content C N hN C (Nat.le_refl C), channelsAfter_all]

theorem retrieveAllChunks.mem_chunkIds (id N count x : Nat) :
    x ∈ retrieveAllChunks.chunkIds id N count ↔ ∃ k, k < count ∧ k * N + id = x := by
  simp [retrieveAllChunks.chunkIds]

theorem retrieveAllChunks.chunkIds_lt (C N j x : Nat) (hj : j < N)
    (hx : x ∈ retrieveAllChunks.chunkIds j N (GetFileFromIDHandler.count C N j)) : x < C := by
  obtain ⟨k, hk, rfl⟩ := (retrieveAllChunks.mem_chunkIds _ _ _ _).1 hx
  rw [GetFileFromIDHandler.count_eq] at hk
  have h2 : C / N * N + C % N = C := by
    have := Nat.div_add_mod C N
    rw [Nat.mul_comm] at this
    exact this
  rcases Nat.lt_or_ge k (C / N) with h | h
  · have h3 : (k + 1) * N ≤ C / N * N := Nat.mul_le_mul_right N h
    rw [Nat.add_mul, Nat.one_mul] at h3
    omega
  · have hjC : j < C % N := by
      by_contra hcon
      rw [if_neg hcon] at hk
      omega
    rw [if_pos hjC] at hk
    have hk' : k = C / N := by omega
    rw [hk']
    omega

theorem retrieveAllChunks.mem_chunkIds_of_lt (C N i : Nat) (hi : i < C) :
    i ∈ retrieveAllChunks.chunkIds (i % N) N (GetFileFromIDHandler.count C N (i % N)) := by
  refine (retrieveAllChunks.mem_chunkIds _ _ _ _).2 ⟨i / N, div_lt_count C N i hi, ?_⟩
  have := Nat.div_add_mod i N
  rw [Nat.mul_comm] at this
  exact this

theorem retrieveAllChunks.chunkIds_mod (N j count x : Nat) (hj : j < N)
    (hx : x ∈ retrieveAllChunks.chunkIds j N count) : x % N = j := by
  obtain ⟨k, _, rfl⟩ := (retrieveAllChunks.mem_chunkIds _ _ _ _).1 hx
  rw [Nat.add_comm, Nat.add_mul_mod_self_right, Nat.mod_eq_of_lt hj]

theorem retrieveAllChunks.chunkIds_sorted (N j count : Nat) (hN : 0 < N) :
    (retrieveAllChunks.chunkIds j N count).Pairwise (· < ·) := by
  unfold retrieveAllChunks.chunkIds
  refine List.Pairwise.map _ ?_ (List.pairwise_lt_range count)
  intro a b hab
  have : a * N < b * N := Nat.mul_lt_mul_of_pos_right hab hN
  omega

/-- The index sets of the routines partition `0, ..., C-1`. -/
theorem retrieveAllChunks.chunkIds_partition (C N : Nat) (hN : 0 < N) :
    ((List.range N).flatMap (fun j =>
      retrieveAllChunks.chunkIds j N (GetFileFromIDHandler.count C N j))).Perm (List.range C) := by
  rw [List.perm_ext_iff_of_nodup _ (List.nodup_range C)]
  · intro x
    rw [List.mem_flatMap, List.mem_range]
    constructor
    · rintro ⟨j, hj, hx⟩
      exact retrieveAllChunks.chunkIds_lt C N j x (List.mem_range.1 hj) hx
    · intro hx
      exact ⟨x % N, List.mem_range.2 (Nat.mod_lt x hN),
        retrieveAllChunks.mem_chunkIds_of_lt C N x hx⟩
  · rw [List.nodup_flatMap]
    constructor
    · intro j _
      exact (retrieveAllChunks.chunkIds_sorted N j _ hN).imp (fun h => Nat.ne_of_lt h)
    · refine (List.nodup_range N).imp_of_mem ?_
      intro a b ha hb hab x hxa hxb
      have h1 := retrieveAllChunks.chunkIds_mod N a _ x (List.mem_range.1 ha) hxa
      have h2 := retrieveAllChunks.chunkIds_mod N b _ x (List.mem_range.1 hb) hxb
      exact hab (h1.symm.trans h2)

theorem retrieveAllChunks.rounds_ok (fetch : String → Option (Except String (List Byte)))
    (name : String) (content : Nat → List Byte) (ids : List Nat)
    (h : ∀ id ∈ ids, fetch (getChunkName name id) = some (.ok (content id))) :
    retrieveAllChunks.rounds fetch name ids = some (.ok (ids.map content)) := by
  induction ids with
  | nil => rfl
  | cons id rest ih =>
    have h1 := h id (List.mem_cons_self id rest)
    have h2 := ih (fun x hx => h x (List.mem_cons_of_mem id hx))
    simp only [retrieveAllChunks.rounds, h1, h2, List.map_cons]

theorem GetFileFromIDHandler.routines_ok (fetch : String → Option (Except String (List Byte)))
    (name : String) (content : Nat → List Byte) (C N : Nat) (js : List Nat)
    (hjs : ∀ j ∈ js, j < N)
    (h : ∀ i, i < C → fetch (getChunkName name i) = some (.ok (content i))) :
    GetFileFromIDHandler.routines fetch name C N js
      = some (.ok (js.map (fun j =>
          (retrieveAllChunks.chunkIds j N (GetFileFromIDHandler.count C N j)).map content))) := by
  induction js with
  | nil => rfl
  | cons j rest ih =>
    have hj : j < N := hjs j (List.mem_cons_self j rest)
    have h1 : retrieveAllChunks fetch j N (GetFileFromIDHandler.count C N j) name
        = some (.ok ((retrieveAllChunks.chunkIds j N
            (GetFileFromIDHandler.count C N j)).map content)) :=
      retrieveAllChunks.rounds_ok fetch name content _
        (fun x hx => h x (retrieveAllChunks.chunkIds_lt C N j x hj hx))
    have h2 := ih (fun x hx => hjs x (List.mem_cons_of_mem j hx))
    simp only [GetFileFromIDHandler.routines, h1, h2, List.map_cons]

/-- C6. With `N > 0` routines (the handler takes `N = 8`) and `C` chunks: routine
`j` is given `C/N + (1 if C mod N > j)` rounds; it fetches the objects
`getChunkName(name, j + i*N)` for `i = 0, 1, ...` in ascending order and sends
their contents in that order; the index lists of the routines `0, ..., N-1`
together are a permutation of `0, ..., C-1`; and the ordered delivery, taking its
`i`-th buffer from the channel of routine `i mod N`, writes the contents of the
chunks `0, ..., C-1` in that order and leaves nothing on any channel. Three
routines and seven chunks give 3, 2 and 2 rounds. -/
theorem ordered_parallel_download (fetch : String → Option (Except String (List Byte)))
    (name : String) (content : Nat → List Byte) (C N : Nat) (hN : 0 < N)
    (hfetch : ∀ i, i < C → fetch (getChunkName name i) = some (.ok (content i))) :
    (∀ j, GetFileFromIDHandler.count C N j = C / N + (if C % N > j then 1 else 0)) ∧
    (∀ j, retrieveAllChunks.chunkIds j N (GetFileFromIDHandler.count C N j)
      = (List.range (GetFileFromIDHandler.count C N j)).map (fun i => i * N + j)) ∧
    (∀ j, (retrieveAllChunks.chunkIds j N (GetFileFromIDHandler.count C N j)).Pairwise
      (· < ·)) ∧
    (∀ j, j < N →
      retrieveAllChunks fetch j N (GetFileFromIDHandler.count C N j) name
        = some (.ok ((retrieveAllChunks.chunkIds j N
            (GetFileFromIDHandler.count C N j)).map content))) ∧
    ((List.range N).flatMap (fun j =>
      retrieveAllChunks.chunkIds j N (GetFileFromIDHandler.count C N j))).Perm (List.range C) ∧
    GetFileFromIDHandler.deliver N C
        ((List.range N).map (fun j =>
          (retrieveAllChunks.chunkIds j N (GetFileFromIDHandler.count C N j)).map content))
      = some (List.replicate N [], (List.range C).map content) ∧
    GetFileFromIDHandler.chunked fetch name C N
      = some (.ok (.body ((List.range C).map content).flatten)) ∧
    (List.range 3).map (GetFileFromIDHandler.count 7 3) = [3, 2, 2] := by
  have hdel := GetFileFromIDHandler.deliver_ordered content C N hN
  have hrout := GetFileFromIDHandler.routines_ok fetch name content C N (List.range N)
    (fun j hj => List.mem_range.1 hj) hfetch
  refine ⟨GetFileFromIDHandler.count_eq C N, fun j => rfl,
    fun j => retrieveAllChunks.chunkIds_sorted N j _ hN, ?_,
    retrieveAllChunks.chunkIds_partition C N hN, hdel, ?_, by decide⟩
  · intro j hj
    exact retrieveAllChunks.rounds_ok fetch name content _
      (fun x hx => hfetch x (retrieveAllChunks.chunkIds_lt C N j x hj hx))
  · simp only [GetFileFromIDHandler.chunked, hrout, hdel]

theorem ordered_parallel_download_witness :
    (0 < 8) ∧
    (∀ i, i < 11 → (fun _ => some (.ok [1, 2])) (getChunkName "file" i)
      = (some (.ok ((fun _ => [1, 2]) i)) : Option (Except String (List Byte)))) ∧
    GetFileFromIDHandler.chunked (fun _ => some (.ok [1, 2])) "file" 11 8
      = some (.ok (.body ((List.range 11).map (fun _ => [(1 : Byte), 2])).flatten)) ∧
    (List.range 8).map (GetFileFromIDHandler.count 11 8) = [2, 2, 2, 1, 1, 1, 1, 1] :=
  ⟨by decide, fun _ _ => rfl,
    (ordered_parallel_download (fun _ => some (.ok [1, 2])) "file" (fun _ => [1, 2]) 11 8
      (by decide) (fun _ _ => rfl)).2.2.2.2.2.2.1,
    by decide⟩

/-! ## Theorems: the chunked upload -/

theorem copy_length (dst src : List Byte) : (copy dst src).length = dst.length := by
  simp only [copy, List.length_append, List.length_take, List.length_drop]
  omega

theorem Reader.Read_n_le (r : Reader) (p : List Byte) : (r.Read p).n ≤ p.length := by
  unfold Reader.Read
  split
  · exact Nat.zero_le _
  · exact Nat.min_le_left _ _

theorem Reader.Read_buf_length (r : Reader) (p : List Byte) :
    (r.Read p).buf.length = p.length := by
  unfold Reader.Read
  split
  · rfl
  · simp only [List.length_append, List.length_take, List.length_drop]
    omega

theorem Reader.Read_eagerEOF (r : Reader) (p : List Byte) :
    (r.Read p).reader.eagerEOF = r.eagerEOF := by
  unfold Reader.Read
  split <;> rfl

theorem UploadFilesHandler.chunkRead_buf_length (cbs space : Nat) (file : Reader)
    (outBuf : List Byte) :
    (UploadFilesHandler.chunkRead cbs space file outBuf).buf.length = outBuf.length := by
  unfold UploadFilesHandler.chunkRead
  split
  · exact copy_length _ _
  · exact Reader.Read_buf_length _ _

theorem UploadFilesHandler.chunkRead_n_le (cbs space : Nat) (file : Reader)
    (outBuf : List Byte) (h : outBuf.length = cbs) :
    (UploadFilesHandler.chunkRead cbs space file outBuf).n ≤ cbs ∧
    (UploadFilesHandler.chunkRead cbs space file outBuf).n ≤ max space cbs ∧
    (cbs ≤ space ∨ (UploadFilesHandler.chunkRead cbs space file outBuf).n ≤ space) := by
  unfold UploadFilesHandler.chunkRead
  split
  · rename_i hlt
    have := Reader.Read_n_le file (List.replicate space 0)
    rw [List.length_replicate] at this
    refine ⟨?_, ?_, Or.inr this⟩
    · exact Nat.le_trans this (Nat.le_of_lt hlt)
    · exact Nat.le_trans this (Nat.le_max_left _ _)
  · rename_i hge
    have := Reader.Read_n_le file outBuf
    rw [h] at this
    exact ⟨this, Nat.le_trans this (Nat.le_max_right _ _), Or.inl (Nat.le_of_not_lt hge)⟩

/-- What the chunk goroutine leaves behind: `outBuf` keeps its length, and no
write to the pipe is longer than the buffer. -/
theorem UploadFilesHandler.chunkWriter_shape (T cbs fuel : Nat) :
    ∀ (file : Reader) (outBuf : List Byte) (cur : Nat) (piped : List (List Byte))
      (file1 : Reader) (outBuf1 : List Byte) (isEof : Bool),
      outBuf.length = cbs →
      UploadFilesHandler.chunkWriter T cbs fuel file outBuf cur
        = some (piped, file1, outBuf1, isEof) →
      outBuf1.length = cbs ∧ ∀ seg ∈ piped, seg.length ≤ cbs := by
  induction fuel with
  | zero =>
    intro file outBuf cur piped file1 outBuf1 isEof _ h
    exact absurd h (by simp [UploadFilesHandler.chunkWriter])
  | succ fuel ih =>
    intro file outBuf cur piped file1 outBuf1 isEof hbuf h
    rw [UploadFilesHandler.chunkWriter] at h
    have hlen := UploadFilesHandler.chunkRead_buf_length cbs (T - cur) file outBuf
    have hn := (UploadFilesHandler.chunkRead_n_le cbs (T - cur) file outBuf hbuf).1
    split at h
    · simp only [Option.some.injEq, Prod.mk.injEq] at h
      obtain ⟨h1, _, h3, _⟩ := h
      subst h1 h3
      exact ⟨hbuf, fun seg hseg => absurd hseg (List.not_mem_nil seg)⟩
    · simp only at h
      split at h
      · simp only [Option.some.injEq, Prod.mk.injEq] at h
        obtain ⟨h1, _, h3, _⟩ := h
        subst h1 h3
        refine ⟨hlen.trans hbuf, ?_⟩
        intro seg hseg
        rw [List.mem_singleton] at hseg
        rw [hseg, List.length_take]
        exact Nat.le_trans (Nat.min_le_left _ _) hn
      · split at h
        · exact absurd h (by simp)
        · rename_i writes f1 o1 e1 hrec
          simp only [Option.some.injEq, Prod.mk.injEq] at h
          obtain ⟨h1, _, h3, _⟩ := h
          subst h1 h3
          obtain ⟨ha, hb⟩ := ih _ _ _ _ _ _ _ (hlen.trans hbuf) hrec
          refine ⟨ha, ?_⟩
          intro seg hseg
          rcases List.mem_cons.1 hseg with hs | hs
          · rw [hs, List.length_take]
            exact Nat.le_trans (Nat.min_le_left _ _) hn
          · exact hb seg hs

/-- The budget accounting of the chunk goroutine: started below the budget `T`, the
sizes it charges, `n + 28` for a write of `n` bytes, add up to at most `T + 28`. -/
theorem UploadFilesHandler.chunkWriter_budget (T cbs fuel : Nat) (hT : T + 28 < 2 ^ 64) :
    ∀ (file : Reader) (outBuf : List Byte) (cur : Nat) (piped : List (List Byte))
      (file1 : Reader) (outBuf1 : List Byte) (isEof : Bool),
      outBuf.length = cbs →
      UploadFilesHandler.chunkWriter T cbs fuel file outBuf cur
        = some (piped, file1, outBuf1, isEof) →
      cur + (piped.map (fun seg => seg.length + 28)).sum ≤ max cur (T + 28) := by
  induction fuel with
  | zero =>
    intro file outBuf cur piped file1 outBuf1 isEof _ h
    exact absurd h (by simp [UploadFilesHandler.chunkWriter])
  | succ fuel ih =>
    intro file outBuf cur piped file1 outBuf1 isEof hbuf h
    rw [UploadFilesHandler.chunkWriter] at h
    have hlen := UploadFilesHandler.chunkRead_buf_length cbs (T - cur) file outBuf
    obtain ⟨hn1, _, hn3⟩ := UploadFilesHandler.chunkRead_n_le cbs (T - cur) file outBuf hbuf
    split at h
    · simp only [Option.some.injEq, Prod.mk.injEq] at h
      obtain ⟨h1, _, _, _⟩ := h
      subst h1
      simp
    · rename_i hcur
      have hn : (UploadFilesHandler.chunkRead cbs (T - cur) file outBuf).n ≤ T - cur := by
        rcases hn3 with h3 | h3
        · exact Nat.le_trans hn1 h3
        · exact h3
      have hseg : ((UploadFilesHandler.chunkRead cbs (T - cur) file outBuf).buf.take
          (UploadFilesHandler.chunkRead cbs (T - cur) file outBuf).n).length
            ≤ (UploadFilesHandler.chunkRead cbs (T - cur) file outBuf).n := by
        rw [List.length_take]
        exact Nat.min_le_left _ _
      simp only at h
      split at h
      · simp only [Option.some.injEq, Prod.mk.injEq] at h
        obtain ⟨h1, _, _, _⟩ := h
        subst h1
        simp only [List.map_cons, List.map_nil, List.sum_cons, List.sum_nil]
        omega
      · split at h
        · exact absurd h (by simp)
        · rename_i writes f1 o1 e1 hrec
          simp only [Option.some.injEq, Prod.mk.injEq] at h
          obtain ⟨h1, _, _, _⟩ := h
          subst h1
          have hmod : (cur + (UploadFilesHandler.chunkRead cbs (T - cur) file outBuf).n
              + getEncryptionOverhead) % 2 ^ 64
              = cur + (UploadFilesHandler.chunkRead cbs (T - cur) file outBuf).n + 28 := by
            apply Nat.mod_eq_of_lt
            simp only [getEncryptionOverhead]
            omega
          rw [hmod] at hrec
          have := ih _ _ _ _ _ _ _ (hlen.trans hbuf) hrec
          simp only [List.map_cons, List.sum_cons]
          omega

theorem Reader.Read_pipe_cons (seg : List Byte) (rest : List (List Byte)) (p : List Byte)
    (h : seg.length ≤ p.length) :
    (Reader.mk (seg :: rest) false).Read p
      = { n := seg.length, eof := false, buf := seg ++ p.drop seg.length,
          reader := Reader.mk rest false } := by
  have hmin : min p.length seg.length = seg.length := Nat.min_eq_right h
  simp [Reader.Read, h, hmin]

theorem pipedBlocks_nil : pipedBlocks [] = [] := rfl

theorem pipedBlocks_cons_nil (rest : List (List Byte)) : pipedBlocks ([] :: rest) = [] := rfl

theorem pipedBlocks_cons (seg : List Byte) (rest : List (List Byte)) (h : seg ≠ []) :
    pipedBlocks (seg :: rest) = seg :: pipedBlocks rest := by
  cases seg with
  | nil => exact absurd rfl h
  | cons x xs => rfl

/-- The block loop of `readEncryptWrite` over a pipe whose writes all fit the
buffer: every write up to the first empty one is sealed as one block. -/
theorem readEncryptWrite.loop_pipe (c : Cryptographer) (fileId : List Byte) (fuel : Nat) :
    ∀ (segs : List (List Byte)) (outBuf : List Byte) (nextBlock : Nat) (rand : RandReader),
      outBuf.length = BUFFER_SIZE → (∀ seg ∈ segs, seg.length ≤ BUFFER_SIZE) →
      segs.length < fuel →
      ∃ file1 : Reader,
        readEncryptWrite.loop c fileId fuel (Reader.ofPipe segs) outBuf nextBlock rand
          = some (sealEach c fileId (pipedBlocks segs) nextBlock rand, file1,
              { rand with pos := rand.pos + 12 * (pipedBlocks segs).length }) := by
  induction fuel with
  | zero => intro segs outBuf nextBlock rand _ _ h; exact absurd h (Nat.not_lt_zero _)
  | succ fuel ih =>
    intro segs outBuf nextBlock rand hbuf hsegs hfuel
    cases segs with
    | nil =>
      refine ⟨Reader.mk [] false, ?_⟩
      simp [readEncryptWrite.loop, Reader.ofPipe, Reader.Read_drained, pipedBlocks_nil,
        sealEach]
    | cons seg rest =>
      have hseg : seg.length ≤ outBuf.length := by
        rw [hbuf]; exact hsegs seg (List.mem_cons_self seg rest)
      have hread := Reader.Read_pipe_cons seg rest outBuf hseg
      by_cases h0 : seg = []
      · subst h0
        refine ⟨Reader.mk rest false, ?_⟩
        rw [readEncryptWrite.loop]
        simp only [Reader.ofPipe, hread, List.length_nil, beq_self_eq_true, Bool.or_true,
          if_true, pipedBlocks_cons_nil, sealEach, Nat.mul_zero, Nat.add_zero]
      · have hpos : seg.length ≠ 0 := fun h => h0 (List.length_eq_zero.1 h)
        have hbuf1 : (seg ++ outBuf.drop seg.length).length = BUFFER_SIZE := by
          rw [List.length_append, List.length_drop]
          omega
        obtain ⟨file1, hrec⟩ := ih rest (seg ++ outBuf.drop seg.length) (nextBlock + 1)
          (Encrypt c seg nextBlock fileId rand).2 hbuf1
          (fun x hx => hsegs x (List.mem_cons_of_mem seg hx))
          (by simpa using hfuel)
        refine ⟨file1, ?_⟩
        have htake : (seg ++ outBuf.drop seg.length).take seg.length = seg := List.take_left _ _
        have hp : ∀ k : Nat, rand.pos + 12 + 12 * k = rand.pos + 12 * (k + 1) := by
          intro k; omega
        rw [readEncryptWrite.loop]
        simp only [Reader.ofPipe, hread, Bool.false_or, beq_iff_eq, hpos, if_false, htake]
        simp only [Reader.ofPipe] at hrec
        rw [hrec, pipedBlocks_cons seg rest h0, Encrypt_snd]
        simp only [sealEach, List.length_cons, hp]

theorem Reader.length_le_size (segs : List (List Byte)) (eager : Bool) :
    segs.length ≤ (Reader.mk segs eager).size := by
  induction segs with
  | nil => exact Nat.zero_le _
  | cons seg rest ih =>
    simp only [Reader.size, List.foldr, List.length_cons] at ih ⊢
    omega

theorem readEncryptWrite_pipe (c : Cryptographer) (segs : List (List Byte)) (rand : RandReader)
    (hsegs : ∀ seg ∈ segs, seg.length ≤ BUFFER_SIZE) :
    ∃ file1 : Reader,
      readEncryptWrite c (Reader.ofPipe segs) rand
        = some ((GenerateIV 16 rand).1
              :: sealEach c (GenerateIV 16 rand).1 (pipedBlocks segs) 0 (GenerateIV 16 rand).2,
            file1,
            { rand with pos := rand.pos + 16 + 12 * (pipedBlocks segs).length }) := by
  obtain ⟨file1, h⟩ := readEncryptWrite.loop_pipe c (GenerateIV 16 rand).1
    ((Reader.ofPipe segs).size + 1) segs (List.replicate BUFFER_SIZE 0) 0 (GenerateIV 16 rand).2
    (List.length_replicate _ _) hsegs (Nat.lt_succ_of_le (Reader.length_le_size segs false))
  refine ⟨file1, ?_⟩
  rw [readEncryptWrite, h]
  rfl

theorem sealEach_length (c : Cryptographer) (fileId : List Byte) (blocks : List (List Byte)) :
    ∀ (nextBlock : Nat) (rand : RandReader),
      (sealEach c fileId blocks nextBlock rand).length = blocks.length := by
  induction blocks with
  | nil => intro _ _; rfl
  | cons b rest ih => intro nb rand; simp only [sealEach, List.length_cons, ih]

theorem sealEach_flatten_length (c : Cryptographer) (htag : c.gcm.TagSize16)
    (fileId : List Byte) (blocks : List (List Byte)) :
    ∀ (nextBlock : Nat) (rand : RandReader),
      (sealEach c fileId blocks nextBlock rand).flatten.length
        = (blocks.map (fun block => block.length + 28)).sum := by
  induction blocks with
  | nil => intro _ _; rfl
  | cons b rest ih =>
    intro nb rand
    have h := htag (rand.window 12) b (idToBytes nb ++ fileId)
    simp only [sealEach, List.flatten_cons, List.length_append, ih, List.map_cons,
      List.sum_cons, Encrypt_fst, rand.length_window]
    omega

theorem chunkObject_length (c : Cryptographer) (htag : c.gcm.TagSize16)
    (piped : List (List Byte)) (rand : RandReader) :
    (chunkObject c piped rand).length = onWireSize (pipedBlocks piped) := by
  rw [chunkObject, List.flatten_cons, List.length_append, GenerateIV_length,
    sealEach_flatten_length c htag, onWireSize]

theorem chunkObject_take (c : Cryptographer) (piped : List (List Byte)) (rand : RandReader) :
    (chunkObject c piped rand).take 16 = (GenerateIV 16 rand).1 := by
  rw [chunkObject, List.flatten_cons]
  exact List.take_left' (GenerateIV_length 16 rand)

theorem pipedBlocks_sum_le (segs : List (List Byte)) :
    ((pipedBlocks segs).map (fun seg => seg.length + 28)).sum
      ≤ (segs.map (fun seg => seg.length + 28)).sum := by
  induction segs with
  | nil => exact Nat.le_refl _
  | cons seg rest ih =>
    by_cases h0 : seg = []
    · subst h0
      rw [pipedBlocks_cons_nil]
      exact Nat.zero_le _
    · rw [pipedBlocks_cons seg rest h0]
      simp only [List.map_cons, List.sum_cons]
      omega

/-- One round of the outer loop, once the chunk goroutine has produced its
writes. -/
theorem UploadFilesHandler.chunkLoop_step (c : Cryptographer) (filename : String)
    (T cbs fuel : Nat) (file : Reader) (outBuf : List Byte) (chunkId : Nat) (rand : RandReader)
    (piped : List (List Byte)) (file1 : Reader) (outBuf1 : List Byte) (isEof : Bool)
    (hbuf : outBuf.length = cbs) (hcbs : cbs ≤ BUFFER_SIZE)
    (hw : UploadFilesHandler.chunkWriter T cbs (T + 1) file outBuf 16
      = some (piped, file1, outBuf1, isEof)) :
    UploadFilesHandler.chunkLoop c filename T cbs (fuel + 1) file outBuf chunkId rand
      = if isEof then
          ([{ name := getChunkName filename chunkId, piped := piped,
              object := chunkObject c piped rand }], true)
        else
          ({ name := getChunkName filename chunkId, piped := piped,
             object := chunkObject c piped rand }
            :: (UploadFilesHandler.chunkLoop c filename T cbs fuel file1 outBuf1 (chunkId + 1)
                { rand with pos := rand.pos + 16 + 12 * (pipedBlocks piped).length }).1,
           (UploadFilesHandler.chunkLoop c filename T cbs fuel file1 outBuf1 (chunkId + 1)
                { rand with pos := rand.pos + 16 + 12 * (pipedBlocks piped).length }).2) := by
  have hshape := (UploadFilesHandler.chunkWriter_shape T cbs (T + 1) file outBuf 16 piped file1
    outBuf1 isEof hbuf hw).2
  obtain ⟨f2, hrew⟩ := readEncryptWrite_pipe c piped rand
    (fun seg hseg => Nat.le_trans (hshape seg hseg) hcbs)
  rw [UploadFilesHandler.chunkLoop]
  simp only [hw, hrew, chunkObject]

theorem UploadFilesHandler.chunkLoop_stuck (c : Cryptographer) (filename : String)
    (T cbs fuel : Nat) (file : Reader) (outBuf : List Byte) (chunkId : Nat) (rand : RandReader)
    (hw : UploadFilesHandler.chunkWriter T cbs (T + 1) file outBuf 16 = none) :
    UploadFilesHandler.chunkLoop c filename T cbs (fuel + 1) file outBuf chunkId rand
      = ([], false) := by
  rw [UploadFilesHandler.chunkLoop]
  simp only [hw]

theorem UploadFilesHandler.chunkLoop_budget (c : Cryptographer) (htag : c.gcm.TagSize16)
    (filename : String) (T cbs : Nat) (hT : T + 28 < 2 ^ 64) (hcbs : cbs ≤ BUFFER_SIZE)
    (fuel : Nat) :
    ∀ (file : Reader) (outBuf : List Byte) (chunkId : Nat) (rand : RandReader),
      outBuf.length = cbs →
      ∀ ch ∈ (UploadFilesHandler.chunkLoop c filename T cbs fuel file outBuf chunkId rand).1,
        ch.object.length = onWireSize (pipedBlocks ch.piped) ∧ ch.object.length ≤ T + 28 := by
  induction fuel with
  | zero => intro file outBuf chunkId rand _ ch hch; exact absurd hch (List.not_mem_nil ch)
  | succ fuel ih =>
    intro file outBuf chunkId rand hbuf ch hch
    cases hw : UploadFilesHandler.chunkWriter T cbs (T + 1) file outBuf 16 with
    | none =>
      rw [UploadFilesHandler.chunkLoop_stuck c filename T cbs fuel file outBuf chunkId rand hw]
        at hch
      exact absurd hch (List.not_mem_nil ch)
    | some res =>
      obtain ⟨piped, file1, outBuf1, isEof⟩ := res
      have hshape := UploadFilesHandler.chunkWriter_shape T cbs (T + 1) file outBuf 16 piped
        file1 outBuf1 isEof hbuf hw
      have hbudget := UploadFilesHandler.chunkWriter_budget T cbs (T + 1) hT file outBuf 16
        piped file1 outBuf1 isEof hbuf hw
      have hthis : (chunkObject c piped rand).length = onWireSize (pipedBlocks piped) ∧
          (chunkObject c piped rand).length ≤ T + 28 := by
        have h1 := chunkObject_length c htag piped rand
        have h2 := pipedBlocks_sum_le piped
        refine ⟨h1, ?_⟩
        rw [h1, onWireSize]
        omega
      rw [UploadFilesHandler.chunkLoop_step c filename T cbs fuel file outBuf chunkId rand piped
        file1 outBuf1 isEof hbuf hcbs hw] at hch
      cases isEof with
      | true =>
        simp only [if_true, List.mem_singleton] at hch
        subst hch
        exact hthis
      | false =>
        simp only [Bool.false_eq_true, if_false, List.mem_cons] at hch
        rcases hch with h | h
        · subst h
          exact hthis
        · exact ih file1 outBuf1 (chunkId + 1) _ hshape.1 ch h

theorem UploadFilesHandler.chunkBufferSize_le (T : Nat) :
    (if T < BUFFER_SIZE then T / 4 else BUFFER_SIZE) ≤ BUFFER_SIZE := by
  split
  · omega
  · exact Nat.le_refl _

/-- C7, as the code has it. With a 16-byte tag and a budget `T` below `2^64 - 28`,
every chunk object the chunked upload produces, from any source reader, has the
on-wire size of the claim (16 bytes of file id and `n + 28` bytes for each block of
`n` plaintext bytes), and that size is at most `T + 28`: the last block of a chunk
is sized to the budget left before its 28 bytes of overhead are charged. -/
theorem chunk_object_size_le_budget_plus_overhead (c : Cryptographer)
    (htag : c.gcm.TagSize16) (filename : String) (T : Nat) (hT : T + 28 < 2 ^ 64)
    (file : Reader) (rand : RandReader) (ch : ChunkUpload)
    (hch : ch ∈ (UploadFilesHandler.chunked c filename T file rand).1) :
    ch.object.length = onWireSize (pipedBlocks ch.piped) ∧ ch.object.length ≤ T + 28 :=
  UploadFilesHandler.chunkLoop_budget c htag filename T _ hT
    (UploadFilesHandler.chunkBufferSize_le T) _ file _ 0 rand (List.length_replicate _ _) ch hch

theorem idPositions_chunkLoop (c : Cryptographer) (filename : String) (T cbs : Nat)
    (hcbs : cbs ≤ BUFFER_SIZE) (fuel : Nat) :
    ∀ (file : Reader) (outBuf : List Byte) (chunkId : Nat) (rand : RandReader),
      outBuf.length = cbs →
      (UploadFilesHandler.chunkLoop c filename T cbs fuel file outBuf chunkId rand).1.map
          (fun ch => ch.object.take 16)
        = (idPositions rand.pos
            (UploadFilesHandler.chunkLoop c filename T cbs fuel file outBuf chunkId rand).1).map
          (fun q => (GenerateIV 16 { rand with pos := q }).1) := by
  induction fuel with
  | zero => intro file outBuf chunkId rand _; rfl
  | succ fuel ih =>
    intro file outBuf chunkId rand hbuf
    cases hw : UploadFilesHandler.chunkWriter T cbs (T + 1) file outBuf 16 with
    | none =>
      rw [UploadFilesHandler.chunkLoop_stuck c filename T cbs fuel file outBuf chunkId rand hw]
      rfl
    | some res =>
      obtain ⟨piped, file1, outBuf1, isEof⟩ := res
      have hshape := UploadFilesHandler.chunkWriter_shape T cbs (T + 1) file outBuf 16 piped
        file1 outBuf1 isEof hbuf hw
      rw [UploadFilesHandler.chunkLoop_step c filename T cbs fuel file outBuf chunkId rand piped
        file1 outBuf1 isEof hbuf hcbs hw]
      cases isEof with
      | true =>
        simp only [if_true, List.map_cons, List.map_nil, idPositions, chunkObject_take]
      | false =>
        have hrec := ih file1 outBuf1 (chunkId + 1)
          { rand with pos := rand.pos + 16 + 12 * (pipedBlocks piped).length } hshape.1
        simp only [Bool.false_eq_true, if_false, List.map_cons, idPositions, chunkObject_take,
          hrec]

theorem idPositions_pairwise (chunks : List ChunkUpload) :
    ∀ pos, (idPositions pos chunks).Pairwise (fun a b => a + 16 ≤ b) ∧
      ∀ q ∈ idPositions pos chunks, pos ≤ q := by
  induction chunks with
  | nil => intro pos; exact ⟨List.Pairwise.nil, fun q hq => absurd hq (List.not_mem_nil q)⟩
  | cons ch rest ih =>
    intro pos
    obtain ⟨h1, h2⟩ := ih (pos + 16 + 12 * (pipedBlocks ch.piped).length)
    refine ⟨List.Pairwise.cons ?_ h1, ?_⟩
    · intro q hq
      have := h2 q hq
      omega
    · intro q hq
      rcases List.mem_cons.1 hq with h | h
      · omega
      · have := h2 q h
        omega

/-- C5, as the code has it. Every chunk object of a chunked upload starts with a
16-byte file id of its own: `readEncryptWrite` draws it from the random source at
the start of each chunk. The id of the first chunk is the first 16 bytes drawn;
the id of each later chunk is what the random source gives after the 16 bytes of
id and the 12 bytes of IV per block of the chunk before it. The windows of the
random stream the ids are cut from are pairwise disjoint. -/
theorem chunk_file_ids_drawn_per_chunk (c : Cryptographer) (filename : String) (T : Nat)
    (file : Reader) (rand : RandReader) :
    (UploadFilesHandler.chunked c filename T file rand).1.map (fun ch => ch.object.take 16)
      = (idPositions rand.pos (UploadFilesHandler.chunked c filename T file rand).1).map
          (fun q => (GenerateIV 16 { rand with pos := q }).1) ∧
    (idPositions rand.pos (UploadFilesHandler.chunked c filename T file rand).1).Pairwise
      (fun a b => a + 16 ≤ b) :=
  ⟨idPositions_chunkLoop c filename T _ (UploadFilesHandler.chunkBufferSize_le T) _ file _ 0 rand
      (List.length_replicate _ _),
    (idPositions_pairwise _ rand.pos).1⟩

/-! ### Stepping the chunk goroutine over a plain stream -/

theorem UploadFilesHandler.chunkWriter_done (T cbs fuel : Nat) (file : Reader)
    (outBuf : List Byte) (cur : Nat) (h : T ≤ cur) :
    UploadFilesHandler.chunkWriter T cbs (fuel + 1) file outBuf cur
      = some ([], file, outBuf, false) := by
  rw [UploadFilesHandler.chunkWriter, if_pos h]

theorem UploadFilesHandler.chunkWriter_eof (T cbs fuel : Nat) (file : Reader)
    (outBuf : List Byte) (cur : Nat) (h : ¬ T ≤ cur)
    (heof : (UploadFilesHandler.chunkRead cbs (T - cur) file outBuf).eof = true) :
    UploadFilesHandler.chunkWriter T cbs (fuel + 1) file outBuf cur
      = some ([(UploadFilesHandler.chunkRead cbs (T - cur) file outBuf).buf.take
                (UploadFilesHandler.chunkRead cbs (T - cur) file outBuf).n],
          (UploadFilesHandler.chunkRead cbs (T - cur) file outBuf).reader,
          (UploadFilesHandler.chunkRead cbs (T - cur) file outBuf).buf, true) := by
  rw [UploadFilesHandler.chunkWriter, if_neg h]
  simp only [heof, if_true]

theorem UploadFilesHandler.chunkWriter_more (T cbs fuel : Nat) (file : Reader)
    (outBuf : List Byte) (cur : Nat) (h : ¬ T ≤ cur)
    (heof : (UploadFilesHandler.chunkRead cbs (T - cur) file outBuf).eof = false)
    (writes : List (List Byte)) (file1 : Reader) (outBuf1 : List Byte) (isEof : Bool)
    (hrec : UploadFilesHandler.chunkWriter T cbs fuel
        (UploadFilesHandler.chunkRead cbs (T - cur) file outBuf).reader
        (UploadFilesHandler.chunkRead cbs (T - cur) file outBuf).buf
        ((cur + (UploadFilesHandler.chunkRead cbs (T - cur) file outBuf).n
          + getEncryptionOverhead) % 2 ^ 64)
      = some (writes, file1, outBuf1, isEof)) :
    UploadFilesHandler.chunkWriter T cbs (fuel + 1) file outBuf cur
      = some ((UploadFilesHandler.chunkRead cbs (T - cur) file outBuf).buf.take
                (UploadFilesHandler.chunkRead cbs (T - cur) file outBuf).n :: writes,
          file1, outBuf1, isEof) := by
  rw [UploadFilesHandler.chunkWriter, if_neg h]
  simp only [heof, Bool.false_eq_true, if_false, hrec]

/-- The read of the chunk goroutine on a drained stream: zero bytes and `io.EOF`. -/
theorem UploadFilesHandler.chunkRead_drained (cbs space : Nat) (eager : Bool)
    (outBuf : List Byte) :
    (UploadFilesHandler.chunkRead cbs space (Reader.mk [] eager) outBuf).n = 0 ∧
    (UploadFilesHandler.chunkRead cbs space (Reader.mk [] eager) outBuf).eof = true ∧
    (UploadFilesHandler.chunkRead cbs space (Reader.mk [] eager) outBuf).reader
      = Reader.mk [] eager := by
  unfold UploadFilesHandler.chunkRead
  split <;> simp [Reader.Read_drained]

/-- The chunk goroutine on a drained stream, below its budget: one empty write, and
`isEof`. -/
theorem UploadFilesHandler.chunkWriter_drained (T cbs fuel : Nat) (eager : Bool)
    (outBuf : List Byte) (cur : Nat) (h : cur < T) :
    ∃ outBuf1, UploadFilesHandler.chunkWriter T cbs (fuel + 1) (Reader.mk [] eager) outBuf cur
      = some ([[]], Reader.mk [] eager, outBuf1, true) := by
  obtain ⟨h1, h2, h3⟩ := UploadFilesHandler.chunkRead_drained cbs (T - cur) eager outBuf
  refine ⟨(UploadFilesHandler.chunkRead cbs (T - cur) (Reader.mk [] eager) outBuf).buf, ?_⟩
  rw [UploadFilesHandler.chunkWriter_eof T cbs fuel _ outBuf cur (Nat.not_le.2 h) h2, h1, h3,
    List.take_zero]

/-- A full-buffer read of the chunk goroutine from a plain stream. -/
theorem UploadFilesHandler.chunkRead_full (cbs space : Nat) (P outBuf : List Byte)
    (eager : Bool) (hP : P ≠ []) (hbuf : outBuf.length = cbs) (hspace : cbs ≤ space) :
    UploadFilesHandler.chunkRead cbs space (Reader.ofBytes P eager) outBuf
      = { n := min cbs P.length
          eof := eager && decide (P.length ≤ cbs)
          buf := P.take (min cbs P.length) ++ outBuf.drop (min cbs P.length)
          reader := Reader.ofBytes (P.drop cbs) eager } := by
  unfold UploadFilesHandler.chunkRead
  rw [if_neg (Nat.not_lt.2 hspace), Reader.Read_ofBytes P outBuf eager hP, hbuf]

/-- A residual read of the chunk goroutine from a plain stream: what it writes
afterwards is the start of the stream, `space` bytes at most. -/
theorem UploadFilesHandler.chunkRead_residual (cbs space : Nat) (P outBuf : List Byte)
    (eager : Bool) (hP : P ≠ []) (hbuf : outBuf.length = cbs) (hspace : space < cbs) :
    (UploadFilesHandler.chunkRead cbs space (Reader.ofBytes P eager) outBuf).n
      = min space P.length ∧
    (UploadFilesHandler.chunkRead cbs space (Reader.ofBytes P eager) outBuf).eof
      = (eager && decide (P.length ≤ space)) ∧
    (UploadFilesHandler.chunkRead cbs space (Reader.ofBytes P eager) outBuf).reader
      = Reader.ofBytes (P.drop space) eager ∧
    (UploadFilesHandler.chunkRead cbs space (Reader.ofBytes P eager) outBuf).buf.take
        (min space P.length) = P.take space := by
  unfold UploadFilesHandler.chunkRead
  rw [if_pos hspace]
  simp only [Reader.Read_ofBytes P _ eager hP, List.length_replicate]
  refine ⟨trivial, trivial, trivial, ?_⟩
  have h1 : (P.take (min space P.length)
      ++ (List.replicate space (0 : Byte)).drop (min space P.length)).length = space := by
    simp only [List.length_append, List.length_take, List.length_drop, List.length_replicate]
    omega
  rw [copy, h1, List.take_append_of_le_length (by
      rw [List.length_take, h1]; omega),
    List.take_take, List.take_append_of_le_length (by rw [List.length_take]; omega),
    List.take_take, List.take_eq_take]
  omega

theorem Reader.size_ofBytes_ne_nil (P : List Byte) (eager : Bool) (h : P ≠ []) :
    (Reader.ofBytes P eager).size = P.length + 1 := by
  rw [Reader.ofBytes_ne_nil P eager h]
  rfl

/-- The chunk goroutine with budget 16428 on a stream of exactly one buffer: it
writes the whole stream as one block, uses the budget up, and has not seen
`io.EOF`. -/
theorem UploadFilesHandler.chunkWriter_16428 (P outBuf : List Byte) (hP : P.length = 16384)
    (hbuf : outBuf.length = BUFFER_SIZE) :
    ∃ outBuf1, outBuf1.length = BUFFER_SIZE ∧
      UploadFilesHandler.chunkWriter 16428 BUFFER_SIZE (16428 + 1) (Reader.ofBytes P false)
          outBuf 16
        = some ([P], Reader.mk [] false, outBuf1, false) := by
  have hne : P ≠ [] := by
    intro h; rw [h] at hP; exact absurd hP (by decide)
  have hread := UploadFilesHandler.chunkRead_full BUFFER_SIZE (16428 - 16) P outBuf false hne
    hbuf (by decide)
  have hmin : min BUFFER_SIZE P.length = 16384 := by rw [hP]; rfl
  have hdrop : P.drop BUFFER_SIZE = [] := List.drop_eq_nil_of_le (by rw [hP]; decide)
  have htake : P.take 16384 = P := List.take_of_length_le (by rw [hP])
  rw [hmin, hdrop, Reader.ofBytes_nil, htake] at hread
  refine ⟨P ++ outBuf.drop 16384, ?_, ?_⟩
  · rw [List.length_append, List.length_drop, hP, hbuf]; rfl
  · have hstep := UploadFilesHandler.chunkWriter_more 16428 BUFFER_SIZE 16428
      (Reader.ofBytes P false) outBuf 16 (by decide) (by rw [hread]; rfl) []
      (Reader.mk [] false) (P ++ outBuf.drop 16384) false
      (by
        rw [hread]
        exact UploadFilesHandler.chunkWriter_done 16428 BUFFER_SIZE 16427 _ _ _ (by
          show 16428 ≤ (16 + 16384 + getEncryptionOverhead) % 2 ^ 64
          decide))
    rw [hstep, hread]
    simp only [List.take_left' hP]

/-- The chunked upload with budget 16428 of a plaintext of exactly 16384 bytes,
read from a stream that reports `io.EOF` after the last byte: a first chunk with
the whole plaintext in one block and a second chunk with no block at all. -/
theorem UploadFilesHandler.chunked_16428 (c : Cryptographer) (filename : String)
    (P : List Byte) (rand : RandReader) (hP : P.length = 16384) :
    UploadFilesHandler.chunked c filename 16428 (Reader.ofBytes P false) rand
      = ([{ name := getChunkName filename 0, piped := [P], object := chunkObject c [P] rand },
          { name := getChunkName filename 1, piped := [[]],
            object := chunkObject c [[]] { rand with pos := rand.pos + 16 + 12 * 1 } }],
         true) := by
  have hne : P ≠ [] := by
    intro h; rw [h] at hP; exact absurd hP (by decide)
  have hcbs : (if 16428 < BUFFER_SIZE then 16428 / 4 else BUFFER_SIZE) = BUFFER_SIZE :=
    if_neg (by decide)
  obtain ⟨outBuf1, hlen1, hw1⟩ := UploadFilesHandler.chunkWriter_16428 P
    (List.replicate BUFFER_SIZE 0) hP (List.length_replicate _ _)
  obtain ⟨outBuf2, hw2⟩ := UploadFilesHandler.chunkWriter_drained 16428 BUFFER_SIZE 16428 false
    outBuf1 16 (by decide)
  have hblocks : (pipedBlocks [P]).length = 1 := by
    rw [pipedBlocks_cons P [] hne]; rfl
  unfold UploadFilesHandler.chunked
  simp only [hcbs]
  rw [Reader.size_ofBytes_ne_nil P false hne,
    UploadFilesHandler.chunkLoop_step c filename 16428 BUFFER_SIZE _ _ _ 0 rand [P]
      (Reader.mk [] false) outBuf1 false (List.length_replicate _ _) (Nat.le_refl _) hw1,
    UploadFilesHandler.chunkLoop_step c filename 16428 BUFFER_SIZE _ _ _ (0 + 1) _ [[]]
      (Reader.mk [] false) outBuf2 true hlen1 (Nat.le_refl _) hw2, hblocks]
  rfl

/-- The chunk goroutine with budget 16429 on a stream of 16385 bytes: a full block,
then, with one byte of budget left, a residual block of one byte, whose 28 bytes
of overhead go beyond the budget. -/
theorem UploadFilesHandler.chunkWriter_16429 (P outBuf : List Byte) (hP : P.length = 16385)
    (hbuf : outBuf.length = BUFFER_SIZE) :
    ∃ file1 outBuf1, outBuf1.length = BUFFER_SIZE ∧
      UploadFilesHandler.chunkWriter 16429 BUFFER_SIZE (16429 + 1) (Reader.ofBytes P false)
          outBuf 16
        = some ([P.take 16384, (P.drop 16384).take 1], file1, outBuf1, false) := by
  have hne : P ≠ [] := by
    intro h; rw [h] at hP; exact absurd hP (by decide)
  have hne2 : P.drop BUFFER_SIZE ≠ [] := by
    intro h
    have := congrArg List.length h
    rw [List.length_drop, hP] at this
    exact absurd this (by decide)
  have hread := UploadFilesHandler.chunkRead_full BUFFER_SIZE (16429 - 16) P outBuf false hne
    hbuf (by decide)
  have hmin : min BUFFER_SIZE P.length = 16384 := by rw [hP]; rfl
  rw [hmin] at hread
  have hbuf1 : (P.take 16384 ++ outBuf.drop 16384).length = BUFFER_SIZE := by
    rw [List.length_append, List.length_take, List.length_drop, hP, hbuf]; rfl
  obtain ⟨hn, heof, hreader, hseg⟩ := UploadFilesHandler.chunkRead_residual BUFFER_SIZE
    (16429 - 16428) (P.drop BUFFER_SIZE) (P.take 16384 ++ outBuf.drop 16384) false hne2 hbuf1
    (by decide)
  have hlen2 : (P.drop BUFFER_SIZE).length = 1 := by rw [List.length_drop, hP]; rfl
  have hn1 : (UploadFilesHandler.chunkRead BUFFER_SIZE (16429 - 16428)
      (Reader.ofBytes (P.drop BUFFER_SIZE) false) (P.take 16384 ++ outBuf.drop 16384)).n = 1 := by
    rw [hn, hlen2]; rfl
  have hseg1 : (UploadFilesHandler.chunkRead BUFFER_SIZE (16429 - 16428)
      (Reader.ofBytes (P.drop BUFFER_SIZE) false) (P.take 16384 ++ outBuf.drop 16384)).buf.take
        (UploadFilesHandler.chunkRead BUFFER_SIZE (16429 - 16428)
          (Reader.ofBytes (P.drop BUFFER_SIZE) false) (P.take 16384 ++ outBuf.drop 16384)).n
      = (P.drop 16384).take 1 := by
    rw [hn]; exact hseg
  have hstep2 := UploadFilesHandler.chunkWriter_more 16429 BUFFER_SIZE 16428
    (Reader.ofBytes (P.drop BUFFER_SIZE) false) (P.take 16384 ++ outBuf.drop 16384) 16428
    (by decide) (by rw [heof]; rfl) [] _ _ false
    (UploadFilesHandler.chunkWriter_done 16429 BUFFER_SIZE 16427 _ _ _ (by
      rw [hn1]
      decide))
  rw [hseg1] at hstep2
  refine ⟨(UploadFilesHandler.chunkRead BUFFER_SIZE (16429 - 16428)
      (Reader.ofBytes (P.drop BUFFER_SIZE) false) (P.take 16384 ++ outBuf.drop 16384)).reader,
    (UploadFilesHandler.chunkRead BUFFER_SIZE (16429 - 16428)
      (Reader.ofBytes (P.drop BUFFER_SIZE) false) (P.take 16384 ++ outBuf.drop 16384)).buf,
    ?_, ?_⟩
  · exact (UploadFilesHandler.chunkRead_buf_length BUFFER_SIZE (16429 - 16428)
      (Reader.ofBytes (P.drop BUFFER_SIZE) false) (P.take 16384 ++ outBuf.drop 16384)).trans hbuf1
  · have hstep1 := UploadFilesHandler.chunkWriter_more 16429 BUFFER_SIZE 16429
      (Reader.ofBytes P false) outBuf 16 (by decide) (by rw [hread]; rfl) _ _ _ false
      (by
        rw [hread]
        exact hstep2)
    rw [hstep1, hread]
    simp only [List.take_left' (show (P.take 16384).length = 16384 by
      rw [List.length_take, hP]; rfl)]

/-! ### The loops of the download come to an end -/

theorem Reader.Read_size_lt (pending : List (List Byte)) (eager : Bool) (p : List Byte)
    (hp : 0 < p.length) (hne : pending ≠ []) :
    ((Reader.mk pending eager).Read p).reader.size < (Reader.mk pending eager).size := by
  cases pending with
  | nil => exact absurd rfl hne
  | cons seg rest =>
    by_cases hle : seg.length ≤ p.length
    · simp only [Reader.Read, hle, if_true, Reader.size, List.foldr]
      omega
    · have hmin : min p.length seg.length = p.length := by omega
      simp only [Reader.Read, hle, if_false, Reader.size, List.foldr, hmin, List.length_drop]
      omega

theorem readDecryptWrite.loop_total (c : Cryptographer) (fileId : List Byte) (fuel : Nat) :
    ∀ (reader : Reader) (outBuf : List Byte) (blockId : Nat),
      0 < outBuf.length → reader.size < fuel →
      ∃ r, readDecryptWrite.loop c fileId fuel reader outBuf blockId = some r := by
  induction fuel with
  | zero => intro reader outBuf blockId _ h; exact absurd h (Nat.not_lt_zero _)
  | succ fuel ih =>
    intro reader outBuf blockId hbuf hfuel
    obtain ⟨pending, eager⟩ := reader
    by_cases hne : pending = []
    · subst hne
      exact ⟨_, readDecryptWrite.loop_drained c fileId outBuf fuel blockId eager⟩
    · have hlt := Reader.Read_size_lt pending eager outBuf hbuf hne
      have hlen := Reader.Read_buf_length (Reader.mk pending eager) outBuf
      obtain ⟨r, hr⟩ := ih ((Reader.mk pending eager).Read outBuf).reader
        ((Reader.mk pending eager).Read outBuf).buf (blockId + 1) (by rw [hlen]; exact hbuf)
        (by omega)
      rw [readDecryptWrite.loop]
      simp only [hr]
      split
      · exact ⟨_, rfl⟩
      · split
        · exact ⟨_, rfl⟩
        · cases r with
          | error e => exact ⟨_, rfl⟩
          | ok rest => exact ⟨_, rfl⟩

/-- `readDecryptWrite` always comes to an end: it returns its writes or panics. -/
theorem readDecryptWrite_total (c : Cryptographer) (reader : Reader) :
    ∃ r, readDecryptWrite c reader = some r := by
  unfold readDecryptWrite
  exact readDecryptWrite.loop_total c _ _ _ _ _
    (by rw [List.length_replicate]; decide) (Nat.lt_succ_self _)

theorem retrieveAllChunks.readAll_total (fuel : Nat) :
    ∀ (r : Reader) (readBuf chunkBuff : List Byte),
      0 < readBuf.length → r.size < fuel →
      ∃ out, retrieveAllChunks.readAll fuel r readBuf chunkBuff = some out := by
  induction fuel with
  | zero => intro r readBuf chunkBuff _ h; exact absurd h (Nat.not_lt_zero _)
  | succ fuel ih =>
    intro r readBuf chunkBuff hbuf hfuel
    obtain ⟨pending, eager⟩ := r
    rw [retrieveAllChunks.readAll]
    by_cases hne : pending = []
    · subst hne
      simp only [Reader.Read_drained, if_true]
      exact ⟨_, rfl⟩
    · have hlt := Reader.Read_size_lt pending eager readBuf hbuf hne
      have hlen := Reader.Read_buf_length (Reader.mk pending eager) readBuf
      split
      · exact ⟨_, rfl⟩
      · exact ih _ _ _ (by rw [hlen]; exact hbuf) (by omega)

/-- One round of `retrieveAllChunks` always comes to an end. -/
theorem retrieveAllChunks.fetch_total (c : Cryptographer) (store : ObjectStore) (eager : Bool)
    (chunkName : String) :
    ∃ r, retrieveAllChunks.fetch c store eager chunkName = some r := by
  unfold retrieveAllChunks.fetch
  split
  · exact ⟨_, rfl⟩
  · rename_i chunkReader _
    obtain ⟨r, hr⟩ := readDecryptWrite_total c chunkReader
    rw [hr]
    cases r with
    | error e => exact ⟨_, rfl⟩
    | ok written =>
      obtain ⟨out, hout⟩ := retrieveAllChunks.readAll_total ((Reader.ofPipe written).size + 1)
        (Reader.ofPipe written) (List.replicate BUFFER_SIZE 0) []
        (by rw [List.length_replicate]; decide) (Nat.lt_succ_self _)
      simp only [hout]
      exact ⟨_, rfl⟩

/-! ### Chunk names and the bucket -/

theorem getChunkName_toList (filename : String) (id : Nat) :
    (getChunkName filename id).toList
      = filename.toList ++ ("_chunk".toList ++ (toString id).toList) := by
  simp [getChunkName, String.toList]

theorem getChunkName_hasPrefix (filename : String) (id : Nat) :
    (filename ++ "_").toList.isPrefixOf (getChunkName filename id).toList = true := by
  rw [List.isPrefixOf_iff_prefix, getChunkName_toList]
  have h : (filename ++ "_").toList = filename.toList ++ ['_'] := by simp [String.toList]
  rw [h]
  exact (List.prefix_append_right_inj _).2
    ⟨'c' :: 'h' :: 'u' :: 'n' :: 'k' :: (toString id).toList, rfl⟩

theorem getChunkName_zero_ne_one (filename : String) :
    getChunkName filename 0 ≠ getChunkName filename 1 := by
  intro h
  have h2 := congrArg String.toList h
  rw [getChunkName_toList, getChunkName_toList] at h2
  have h3 := List.append_cancel_left (List.append_cancel_left h2)
  exact absurd h3 (by decide)

theorem ObjectStore.putChunks_one (ch : ChunkUpload) :
    ObjectStore.putChunks [] [ch] = [(ch.name, ch.object)] := rfl

theorem ObjectStore.putChunks_two (ch0 ch1 : ChunkUpload) (h : ch0.name ≠ ch1.name) :
    ObjectStore.putChunks [] [ch0, ch1] = [(ch0.name, ch0.object), (ch1.name, ch1.object)] := by
  simp [ObjectStore.putChunks, ObjectStore.UploadFile, h]

/-! ### The download of a chunk without blocks -/

theorem retrieveAllChunks.fetch_header_only (c : Cryptographer) (store : ObjectStore)
    (eager : Bool) (chunkName : String) (obj : List Byte)
    (hlookup : store.lookup chunkName = some obj) (hlen : obj.length ≤ 16) :
    retrieveAllChunks.fetch c store eager chunkName
      = some (.error "slice bounds out of range") := by
  simp only [retrieveAllChunks.fetch, ObjectStore.DownloadFile, hlookup,
    readDecryptWrite_header_only c obj eager hlen]

theorem chunkObject_no_block_length (c : Cryptographer) (rand : RandReader) :
    (chunkObject c [[]] rand).length ≤ 16 := by
  rw [chunkObject, pipedBlocks_cons_nil]
  simp [sealEach, GenerateIV_length]

theorem List.lookup_head (name : String) (obj : List Byte) (rest : ObjectStore) :
    List.lookup name ((name, obj) :: rest) = some obj := by
  simp [List.lookup]

theorem List.lookup_second (name0 name1 : String) (obj0 obj1 : List Byte) (rest : ObjectStore)
    (h : name0 ≠ name1) :
    List.lookup name1 ((name0, obj0) :: (name1, obj1) :: rest) = some obj1 := by
  have h' : (name1 == name0) = false := by
    simp only [beq_eq_false_iff_ne, ne_eq]
    exact fun e => h e.symm
  simp [List.lookup, h']

/-- The chunked upload of the empty plaintext: one chunk, without any block. -/
theorem UploadFilesHandler.chunked_empty (c : Cryptographer) (filename : String) (T : Nat)
    (hT : 16 < T) (eager : Bool) (rand : RandReader) :
    UploadFilesHandler.chunked c filename T (Reader.ofBytes [] eager) rand
      = ([{ name := getChunkName filename 0, piped := [[]],
            object := chunkObject c [[]] rand }], true) := by
  obtain ⟨outBuf1, hw⟩ := UploadFilesHandler.chunkWriter_drained T
    (if T < BUFFER_SIZE then T / 4 else BUFFER_SIZE) T eager
    (List.replicate (if T < BUFFER_SIZE then T / 4 else BUFFER_SIZE) 0) 16 hT
  unfold UploadFilesHandler.chunked
  simp only [Reader.ofBytes_nil]
  rw [show (Reader.mk [] eager).size + 1 = 0 + 1 from rfl,
    UploadFilesHandler.chunkLoop_step c filename T _ 0 _ _ 0 rand [[]] (Reader.mk [] eager)
      outBuf1 true (List.length_replicate _ _) (UploadFilesHandler.chunkBufferSize_le T) hw]
  rfl

theorem GetFileFromIDHandler.chunked_first_fails
    (fetch : String → Option (Except String (List Byte))) (name : String) (e : String)
    (h : fetch (getChunkName name 0) = some (.error e)) :
    GetFileFromIDHandler.chunked fetch name 1 8 = some (.error e) ∧
    GetFileFromIDHandler.chunked fetch name 2 8 = some (.error e) := by
  have hr : List.range 8 = 0 :: [1, 2, 3, 4, 5, 6, 7] := by decide
  have h1 : retrieveAllChunks.chunkIds 0 8 (GetFileFromIDHandler.count 1 8 0) = [0] := by decide
  have h2 : retrieveAllChunks.chunkIds 0 8 (GetFileFromIDHandler.count 2 8 0) = [0] := by decide
  constructor
  · simp only [GetFileFromIDHandler.chunked, hr, GetFileFromIDHandler.routines,
      retrieveAllChunks, h1, retrieveAllChunks.rounds, h]
  · simp only [GetFileFromIDHandler.chunked, hr, GetFileFromIDHandler.routines,
      retrieveAllChunks, h2, retrieveAllChunks.rounds, h]

theorem GetFileFromIDHandler.chunked_second_fails
    (fetch : String → Option (Except String (List Byte))) (name : String) (e : String)
    (r0 : Except String (List Byte))
    (h0 : fetch (getChunkName name 0) = some r0)
    (h1 : fetch (getChunkName name 1) = some (.error e)) :
    ∃ e1, GetFileFromIDHandler.chunked fetch name 2 8 = some (.error e1) := by
  cases r0 with
  | error e0 => exact ⟨e0, (GetFileFromIDHandler.chunked_first_fails fetch name e0 h0).2⟩
  | ok b =>
    have hr : List.range 8 = 0 :: 1 :: [2, 3, 4, 5, 6, 7] := by decide
    have hi0 : retrieveAllChunks.chunkIds 0 8 (GetFileFromIDHandler.count 2 8 0) = [0] := by
      decide
    have hi1 : retrieveAllChunks.chunkIds 1 8 (GetFileFromIDHandler.count 2 8 1) = [1] := by
      decide
    refine ⟨e, ?_⟩
    simp only [GetFileFromIDHandler.chunked, hr, GetFileFromIDHandler.routines,
      retrieveAllChunks, hi0, hi1, retrieveAllChunks.rounds, h0, h1]

theorem ObjectStore.GetAllChunks_one (filename : String) (obj0 : List Byte) :
    (ObjectStore.GetAllChunks [(getChunkName filename 0, obj0)] filename).length = 1 := by
  simp only [ObjectStore.GetAllChunks, List.filter, getChunkName_hasPrefix, List.map_cons,
    List.map_nil, List.length_cons, List.length_nil]

theorem ObjectStore.GetAllChunks_two (filename : String) (obj0 obj1 : List Byte) :
    (ObjectStore.GetAllChunks
      [(getChunkName filename 0, obj0), (getChunkName filename 1, obj1)] filename).length
      = 2 := by
  simp only [ObjectStore.GetAllChunks, List.filter, getChunkName_hasPrefix, List.map_cons,
    List.map_nil, List.length_cons, List.length_nil]

/-- C2 at two inputs. With chunk budget 16428, for every cipher, random source and
way of reporting `io.EOF` at the object store: the upload of the empty plaintext
stores one chunk that holds a file id and no block, and the chunked download
panics on it; and the upload of a plaintext of 16384 bytes (the example of the
claim, read from a stream that reports `io.EOF` after the last byte) stores a
second chunk of that kind, so that the download panics as well instead of
returning the plaintext. -/
theorem chunked_round_trip_panics_on_chunk_without_block (c : Cryptographer)
    (filename : String) (rand : RandReader) (eagerFile eagerObject : Bool) :
    GetFileFromIDHandler c
        (ObjectStore.putChunks []
          (UploadFilesHandler.chunked c filename 16428 (Reader.ofBytes [] eagerFile) rand).1)
        eagerObject true filename
      = some (.error "slice bounds out of range") ∧
    ∃ e,
      GetFileFromIDHandler c
          (ObjectStore.putChunks []
            (UploadFilesHandler.chunked c filename 16428
              (Reader.ofBytes (List.replicate 16384 0) false) rand).1)
          eagerObject true filename
        = some (.error e) := by
  constructor
  · rw [UploadFilesHandler.chunked_empty c filename 16428 (by decide) eagerFile rand,
      ObjectStore.putChunks_one]
    have hfetch := retrieveAllChunks.fetch_header_only c
      [(getChunkName filename 0, chunkObject c [[]] rand)] eagerObject (getChunkName filename 0)
      _ (List.lookup_head _ _ _) (chunkObject_no_block_length c rand)
    have hchunks := ObjectStore.GetAllChunks_one filename (chunkObject c [[]] rand)
    simp only [GetFileFromIDHandler, hchunks, Bool.not_true, Bool.false_eq_true, if_false,
      (GetFileFromIDHandler.chunked_first_fails _ filename _ hfetch).1]
    rfl
  · rw [UploadFilesHandler.chunked_16428 c filename _ rand (List.length_replicate _ _),
      ObjectStore.putChunks_two _ _ (getChunkName_zero_ne_one filename)]
    have hfetch1 := retrieveAllChunks.fetch_header_only c
      [(getChunkName filename 0, chunkObject c [List.replicate 16384 0] rand),
       (getChunkName filename 1,
         chunkObject c [[]] { rand with pos := rand.pos + 16 + 12 * 1 })]
      eagerObject (getChunkName filename 1) _
      (List.lookup_second _ _ _ _ _ (getChunkName_zero_ne_one filename))
      (chunkObject_no_block_length c _)
    obtain ⟨r0, hfetch0⟩ := retrieveAllChunks.fetch_total c
      [(getChunkName filename 0, chunkObject c [List.replicate 16384 0] rand),
       (getChunkName filename 1,
         chunkObject c [[]] { rand with pos := rand.pos + 16 + 12 * 1 })]
      eagerObject (getChunkName filename 0)
    obtain ⟨e, he⟩ := GetFileFromIDHandler.chunked_second_fails _ filename _ r0 hfetch0 hfetch1
    have hchunks := ObjectStore.GetAllChunks_two filename
      (chunkObject c [List.replicate 16384 0] rand)
      (chunkObject c [[]] { rand with pos := rand.pos + 16 + 12 * 1 })
    refine ⟨e, ?_⟩
    simp only [GetFileFromIDHandler, hchunks, Bool.not_true, Bool.false_eq_true, if_false, he]
    rfl

/-! ### The claims on file ids and chunk sizes at concrete uploads -/

/-- C5 fails as stated. The upload of 16384 bytes with chunk budget 16428 stores
two chunk objects; with the random source that counts 0, 1, 2, ... the first
starts with the bytes 0..15 and the second with the bytes 28..43. -/
theorem chunk_file_ids_differ :
    (UploadFilesHandler.chunked ⟨tagCipher⟩ "file" 16428
        (Reader.ofBytes (List.replicate 16384 0) false) ⟨fun i => UInt8.ofNat i, 0⟩).1.map
      (fun ch => (ch.name, ch.object.take 16))
      = [("file_chunk0", (List.range 16).map (fun i => UInt8.ofNat i)),
         ("file_chunk1", (List.range 16).map (fun i => UInt8.ofNat (28 + i)))] ∧
    (List.range 16).map (fun i => UInt8.ofNat i)
      ≠ (List.range 16).map (fun i => UInt8.ofNat (28 + i)) := by
  constructor
  · rw [UploadFilesHandler.chunked_16428 ⟨tagCipher⟩ "file" _ _ (List.length_replicate _ _)]
    simp only [List.map_cons, List.map_nil, chunkObject_take]
    rfl
  · decide

theorem UploadFilesHandler.chunked_16429_head (c : Cryptographer) (htag : c.gcm.TagSize16)
    (filename : String) (P : List Byte) (rand : RandReader) (hP : P.length = 16385) :
    (UploadFilesHandler.chunked c filename 16429 (Reader.ofBytes P false) rand).1.head?.map
        (fun ch => (ch.name, ch.object.length))
      = some (getChunkName filename 0, 16457) := by
  have hne : P ≠ [] := by
    intro h; rw [h] at hP; exact absurd hP (by decide)
  have hcbs : (if 16429 < BUFFER_SIZE then 16429 / 4 else BUFFER_SIZE) = BUFFER_SIZE :=
    if_neg (by decide)
  obtain ⟨file1, outBuf1, _, hw⟩ := UploadFilesHandler.chunkWriter_16429 P
    (List.replicate BUFFER_SIZE 0) hP (List.length_replicate _ _)
  have h1 : (P.take 16384).length = 16384 := by rw [List.length_take, hP]; rfl
  have h2 : ((P.drop 16384).take 1).length = 1 := by
    rw [List.length_take, List.length_drop, hP]; rfl
  have hne1 : P.take 16384 ≠ [] := by
    intro h; rw [h] at h1; exact absurd h1 (by decide)
  have hne2 : (P.drop 16384).take 1 ≠ [] := by
    intro h; rw [h] at h2; exact absurd h2 (by decide)
  have hblocks : pipedBlocks [P.take 16384, (P.drop 16384).take 1]
      = [P.take 16384, (P.drop 16384).take 1] := by
    rw [pipedBlocks_cons _ _ hne1, pipedBlocks_cons _ _ hne2, pipedBlocks_nil]
  have hsize : (chunkObject c [P.take 16384, (P.drop 16384).take 1] rand).length = 16457 := by
    rw [chunkObject_length c htag, hblocks, onWireSize]
    simp only [List.map_cons, List.map_nil, List.sum_cons, List.sum_nil, h1, h2]
    omega
  unfold UploadFilesHandler.chunked
  simp only [hcbs]
  rw [Reader.size_ofBytes_ne_nil P false hne,
    UploadFilesHandler.chunkLoop_step c filename 16429 BUFFER_SIZE _ _ _ 0 rand _ file1 outBuf1
      false (List.length_replicate _ _) (Nat.le_refl _) hw]
  simp only [Bool.false_eq_true, if_false, List.head?_cons, Option.map_some', hsize]

/-- C7 fails as stated. With chunk budget 16429, which is above the minimum
16 + 16384 + 28, the upload of 16385 bytes stores a first chunk object of 16457
bytes: a full block, then a residual block of the one byte of budget left. -/
theorem chunk_object_exceeds_budget :
    16 + 16384 + 28 ≤ 16429 ∧
    (UploadFilesHandler.chunked ⟨tagCipher⟩ "file" 16429
        (Reader.ofBytes (List.replicate 16385 0) false) ⟨fun i => UInt8.ofNat i, 0⟩).1.head?.map
      (fun ch => (ch.name, ch.object.length)) = some ("file_chunk0", 16457) ∧
    16429 < 16457 :=
  ⟨by decide,
    UploadFilesHandler.chunked_16429_head ⟨tagCipher⟩ tagCipher_tagSize16 "file" _ _
      (List.length_replicate _ _),
    by decide⟩

theorem chunk_object_size_le_budget_plus_overhead_witness :
    tagCipher.TagSize16 ∧ 16428 + 28 < 2 ^ 64 ∧
    ChunkUpload.mk (getChunkName "file" 0) [List.replicate 16384 0]
        (chunkObject ⟨tagCipher⟩ [List.replicate 16384 0] ⟨fun i => UInt8.ofNat i, 0⟩)
      ∈ (UploadFilesHandler.chunked ⟨tagCipher⟩ "file" 16428
          (Reader.ofBytes (List.replicate 16384 0) false) ⟨fun i => UInt8.ofNat i, 0⟩).1 ∧
    (chunkObject ⟨tagCipher⟩ [List.replicate 16384 0] ⟨fun i => UInt8.ofNat i, 0⟩).length
      = onWireSize (pipedBlocks [List.replicate 16384 0]) ∧
    (chunkObject ⟨tagCipher⟩ [List.replicate 16384 0] ⟨fun i => UInt8.ofNat i, 0⟩).length
      ≤ 16428 + 28 :=
  have hmem : ChunkUpload.mk (getChunkName "file" 0) [List.replicate 16384 0]
        (chunkObject ⟨tagCipher⟩ [List.replicate 16384 0] ⟨fun i => UInt8.ofNat i, 0⟩)
      ∈ (UploadFilesHandler.chunked ⟨tagCipher⟩ "file" 16428
          (Reader.ofBytes (List.replicate 16384 0) false) ⟨fun i => UInt8.ofNat i, 0⟩).1 := by
    rw [UploadFilesHandler.chunked_16428 ⟨tagCipher⟩ "file" _ _ (List.length_replicate _ _)]
    exact List.mem_cons_self _ _
  ⟨tagCipher_tagSize16, by decide, hmem,
    chunk_object_size_le_budget_plus_overhead ⟨tagCipher⟩ tagCipher_tagSize16 "file" 16428
      (by decide) _ _ _ hmem⟩

/-! ### The non-chunked round trip of a non-empty plaintext -/

theorem Encrypt_length (c : Cryptographer) (htag : c.gcm.TagSize16) (p f : List Byte) (b : Nat)
    (rand : RandReader) : (Encrypt c p b f rand).1.length = p.length + 28 := by
  rw [Encrypt_fst, List.length_append, htag, rand.length_window]
  omega

theorem readDecryptWrite.loop_last (c : Cryptographer) (fileId E outBuf d : List Byte)
    (blockId fuel : Nat) (hpos : 0 < E.length) (hle : E.length ≤ outBuf.length)
    (hdec : Decrypt c E fileId blockId = .ok d) :
    readDecryptWrite.loop c fileId (fuel + 1) (Reader.ofBytes E true) outBuf blockId
      = some (.ok [d]) := by
  have hne : E ≠ [] := fun h => by rw [h] at hpos; exact absurd hpos (Nat.lt_irrefl 0)
  have hmin : min outBuf.length E.length = E.length := Nat.min_eq_right hle
  have htake : (E.take E.length ++ outBuf.drop E.length).take E.length = E := by
    rw [List.take_length]; exact List.take_left _ _
  rw [readDecryptWrite.loop]
  simp only [Reader.Read_ofBytes E outBuf true hne, hmin, htake, hdec, hpos, if_true, hle,
    decide_True, Bool.and_self]

theorem readDecryptWrite.loop_more (c : Cryptographer) (fileId E R outBuf d : List Byte)
    (blockId fuel : Nat) (hE : E.length = outBuf.length) (hR : R ≠ [])
    (hbuf : 0 < outBuf.length) (hdec : Decrypt c E fileId blockId = .ok d) :
    readDecryptWrite.loop c fileId (fuel + 1) (Reader.ofBytes (E ++ R) true) outBuf blockId
      = match readDecryptWrite.loop c fileId fuel (Reader.ofBytes R true) E (blockId + 1) with
        | none => none
        | some (.error e) => some (.error e)
        | some (.ok rest) => some (.ok ([d] ++ rest)) := by
  have hne : E ++ R ≠ [] := fun h => hR (List.append_eq_nil.1 h).2
  have hRpos : 0 < R.length := List.length_pos.2 hR
  have hmin : min outBuf.length (E ++ R).length = outBuf.length := by
    rw [List.length_append]; omega
  have hnle : ¬ (E ++ R).length ≤ outBuf.length := by
    rw [List.length_append]; omega
  have hbuf1 : (E ++ R).take outBuf.length ++ outBuf.drop outBuf.length = E := by
    rw [List.take_left' hE, List.drop_length, List.append_nil]
  have hdrop : (E ++ R).drop outBuf.length = R := List.drop_left' hE
  have htake : E.take outBuf.length = E := List.take_of_length_le (Nat.le_of_eq hE)
  rw [readDecryptWrite.loop]
  simp only [Reader.Read_ofBytes (E ++ R) outBuf true hne, hmin, hnle, decide_False,
    Bool.and_false, hbuf1, hdrop, htake, hdec, hbuf, if_true, Bool.false_eq_true, if_false]

/-- The block loop of `readDecryptWrite` over the sealed blocks of a non-empty
plaintext, read from an object reader that reports `io.EOF` together with the
last bytes: every read returns exactly one sealed block, and the writes add up to
the plaintext. -/
theorem readDecryptWrite.loop_sealBlocks (c : Cryptographer) (hgcm : c.gcm.Correct)
    (htag : c.gcm.TagSize16) (fileId : List Byte) (k : Nat) :
    ∀ (P outBuf : List Byte) (nextBlock fuel : Nat) (rand : RandReader),
      numBlocks P.length = k + 1 → outBuf.length = BUFFER_SIZE + 12 + 16 → k < fuel →
      ∃ written : List (List Byte),
        readDecryptWrite.loop c fileId fuel
            (Reader.ofBytes (sealBlocks c fileId (k + 1) P nextBlock rand).flatten true)
            outBuf nextBlock
          = some (.ok written) ∧ written.flatten = P := by
  induction k with
  | zero =>
    intro P outBuf nextBlock fuel rand hk hbuf hfuel
    obtain ⟨fuel, rfl⟩ : ∃ f, fuel = f + 1 := ⟨fuel - 1, by omega⟩
    have hL : 0 < P.length ∧ P.length ≤ 16384 := by
      simp only [numBlocks, BUFFER_SIZE] at hk
      omega
    have htake : P.take BUFFER_SIZE = P := List.take_of_length_le hL.2
    have hS : (sealBlocks c fileId (0 + 1) P nextBlock rand).flatten
        = (Encrypt c P nextBlock fileId rand).1 := by
      rw [sealBlocks_succ, htake]
      simp [sealBlocks]
    have hlen := Encrypt_length c htag P fileId nextBlock rand
    have hbuf' : outBuf.length = 16412 := by rw [hbuf]; rfl
    refine ⟨[P], ?_, by simp⟩
    rw [hS]
    exact readDecryptWrite.loop_last c fileId _ outBuf P nextBlock fuel (by omega) (by omega)
      (Decrypt_Encrypt_ok c hgcm P fileId nextBlock rand)
  | succ k ih =>
    intro P outBuf nextBlock fuel rand hk hbuf hfuel
    obtain ⟨fuel, rfl⟩ : ∃ f, fuel = f + 1 := ⟨fuel - 1, by omega⟩
    have hL : 16384 < P.length := by
      simp only [numBlocks, BUFFER_SIZE] at hk
      omega
    have hk1 : numBlocks (P.drop BUFFER_SIZE).length = k + 1 := by
      have := numBlocks_pos P.length (by omega)
      rw [List.length_drop]
      omega
    have htl : (P.take BUFFER_SIZE).length = 16384 := by
      rw [List.length_take]; simp only [BUFFER_SIZE]; omega
    have hlen := Encrypt_length c htag (P.take BUFFER_SIZE) fileId nextBlock rand
    rw [htl] at hlen
    have hrestlen := sealBlocks_flatten_length c htag fileId (k + 1) (P.drop BUFFER_SIZE)
      (nextBlock + 1) { rand with pos := rand.pos + 12 } hk1
    have hbuf' : outBuf.length = 16412 := by rw [hbuf]; rfl
    have hR : (sealBlocks c fileId (k + 1) (P.drop BUFFER_SIZE) (nextBlock + 1)
        { rand with pos := rand.pos + 12 }).flatten ≠ [] := by
      intro h
      rw [h, List.length_nil] at hrestlen
      omega
    obtain ⟨rest, hrec, hflat⟩ := ih (P.drop BUFFER_SIZE)
      (Encrypt c (P.take BUFFER_SIZE) nextBlock fileId rand).1 (nextBlock + 1) fuel
      { rand with pos := rand.pos + 12 } hk1 (by rw [hlen]; rfl) (by omega)
    refine ⟨[P.take BUFFER_SIZE] ++ rest, ?_, ?_⟩
    · rw [sealBlocks_succ, List.flatten_cons,
        readDecryptWrite.loop_more c fileId _ _ outBuf (P.take BUFFER_SIZE) nextBlock fuel
          (by rw [hlen, hbuf']) hR (by omega)
          (Decrypt_Encrypt_ok c hgcm _ fileId nextBlock rand), hrec]
    · rw [List.flatten_append, hflat]
      simp

theorem readDecryptWrite_header (c : Cryptographer) (fileId R : List Byte) (eager : Bool)
    (hF : fileId.length = 16) (hR : R ≠ []) :
    readDecryptWrite c (Reader.ofBytes (fileId ++ R) eager)
      = readDecryptWrite.loop c fileId (R.length + 1 + 1) (Reader.ofBytes R eager)
          (List.replicate (BUFFER_SIZE + 12 + 16) 0) 0 := by
  have hne : fileId ++ R ≠ [] := fun h => hR (List.append_eq_nil.1 h).2
  have hRpos : 0 < R.length := List.length_pos.2 hR
  have hmin : min (List.replicate 16 (0 : Byte)).length (fileId ++ R).length = 16 := by
    rw [List.length_replicate, List.length_append]; omega
  have hbuf : (fileId ++ R).take 16 ++ (List.replicate 16 (0 : Byte)).drop 16 = fileId := by
    rw [List.take_left' hF, List.drop_eq_nil_of_le (by rw [List.length_replicate]),
      List.append_nil]
  have hdrop : (fileId ++ R).drop (List.replicate 16 (0 : Byte)).length = R := by
    rw [List.length_replicate]; exact List.drop_left' hF
  unfold readDecryptWrite
  simp only [Reader.Read_ofBytes (fileId ++ R) _ eager hne, hmin, hbuf, hdrop,
    Reader.size_ofBytes_ne_nil R eager hR]

/-- The non-chunked round trip of a non-empty plaintext. With a cipher that opens
what it sealed and has a 16-byte tag, an upload source that reports `io.EOF` on
the read after the last byte and an object reader that reports it together with
the last bytes, `readDecryptWrite` fed with what `readEncryptWrite` wrote for a
non-empty plaintext writes exactly that plaintext and finishes. -/
theorem nonChunkedRoundTrip_nonempty (c : Cryptographer) (hgcm : c.gcm.Correct)
    (htag : c.gcm.TagSize16) (P : List Byte) (rand : RandReader) (hP : P ≠ []) :
    nonChunkedRoundTrip c P rand false true = some (.ok P) := by
  have hpos : 0 < P.length := List.length_pos.2 hP
  obtain ⟨k, hk⟩ : ∃ k, numBlocks P.length = k + 1 :=
    ⟨numBlocks (P.length - BUFFER_SIZE), numBlocks_pos P.length hpos⟩
  have hflat := sealBlocks_flatten_length c htag (GenerateIV 16 rand).1 (numBlocks P.length) P 0
    (GenerateIV 16 rand).2 rfl
  have hR : (sealBlocks c (GenerateIV 16 rand).1 (numBlocks P.length) P 0
      (GenerateIV 16 rand).2).flatten ≠ [] := by
    intro h
    rw [h, List.length_nil] at hflat
    omega
  have hkle := numBlocks_le_self P.length
  obtain ⟨written, hloop, hwritten⟩ := readDecryptWrite.loop_sealBlocks c hgcm htag
    (GenerateIV 16 rand).1 k P (List.replicate (BUFFER_SIZE + 12 + 16) 0) 0
    ((sealBlocks c (GenerateIV 16 rand).1 (numBlocks P.length) P 0
      (GenerateIV 16 rand).2).flatten.length + 1 + 1) (GenerateIV 16 rand).2 hk
    (List.length_replicate _ _) (by rw [hflat]; omega)
  rw [← hk] at hloop
  unfold nonChunkedRoundTrip
  simp only [readEncryptWrite_stream, List.flatten_cons,
    readDecryptWrite_header c _ _ true (GenerateIV_length 16 rand) hR, hloop, hwritten]

/-! ## Theorems: what parseChunkSize does not reject -/

/-- A text without any decimal digit has no match, and `parseChunkSize` fails on
it. -/
theorem FindStringSubmatch_no_digit (text : List Char)
    (h : ∀ c ∈ text, isDigit c = false) : FindStringSubmatch text = none := by
  induction text with
  | nil => rfl
  | cons c cs ih =>
    have hc : isDigit c = false := h c (List.mem_cons_self c cs)
    have hcs := ih (fun x hx => h x (List.mem_cons_of_mem c hx))
    simp only [FindStringSubmatch, Regexp.matchHere, hc, Bool.false_eq_true, if_false, hcs]

/-- C11 at four inputs. `parseChunkSize` fails on "MB", which has no digit. But the
pattern is searched anywhere in the text and every unit that is not K, M, G, T or
P counts as a factor of one: "1.5MB" is read as its part "5MB" and gives 5000000,
"5XB" gives 5, and "x1MBy" gives 1000000, each a size returned without error for
a text that is not of the form digits, unit, B. -/
theorem parseChunkSize_accepts_malformed (overflow : Int → Nat) :
    parseChunkSize overflow "MB" = .error "Matches should be 3" ∧
    parseChunkSize overflow "1.5MB" = .ok 5000000 ∧
    parseChunkSize overflow "5XB" = .ok 5 ∧
    parseChunkSize overflow "x1MBy" = .ok 1000000 := by
  refine ⟨rfl, rfl, rfl, rfl⟩

/-- A text without any decimal digit is rejected. -/
theorem parseChunkSize_no_digit (overflow : Int → Nat) (size : String)
    (h : ∀ c ∈ size.toList, isDigit c = false) :
    parseChunkSize overflow size = .error "Matches should be 3" := by
  unfold parseChunkSize
  rw [FindStringSubmatch_no_digit size.toList h]

/-! ## Theorems: progress of the chunked upload -/

/-- A read hands out the start of the stream: what it put into the buffer and
what is still pending are together what was pending before. -/
theorem Reader.Read_conserve (r : Reader) (p : List Byte) :
    (r.Read p).buf.take (r.Read p).n ++ (r.Read p).reader.pending.flatten
      = r.pending.flatten := by
  obtain ⟨pending, eager⟩ := r
  cases pending with
  | nil => simp [Reader.Read]
  | cons seg rest =>
    have hlen : (seg.take (min p.length seg.length)).length = min p.length seg.length := by
      rw [List.length_take]; omega
    have htake : (seg.take (min p.length seg.length)
        ++ p.drop (min p.length seg.length)).take (min p.length seg.length)
        = seg.take (min p.length seg.length) := List.take_left' hlen
    by_cases hle : seg.length ≤ p.length
    · have hmin : min p.length seg.length = seg.length := Nat.min_eq_right hle
      simp only [Reader.Read, hle, if_true, htake, List.flatten_cons]
      rw [hmin, List.take_length]
    · simp only [Reader.Read, hle, if_false, htake, List.flatten_cons]
      rw [← List.append_assoc, List.take_append_drop]

theorem Reader.Read_segments (r : Reader) (p : List Byte)
    (h : ∀ seg ∈ r.pending, seg ≠ []) : ∀ seg ∈ (r.Read p).reader.pending, seg ≠ [] := by
  obtain ⟨pending, eager⟩ := r
  cases pending with
  | nil => exact h
  | cons seg rest =>
    by_cases hle : seg.length ≤ p.length
    · simp only [Reader.Read, hle, if_true]
      exact fun x hx => h x (List.mem_cons_of_mem seg hx)
    · simp only [Reader.Read, hle, if_false]
      intro x hx
      rcases List.mem_cons.1 hx with hx | hx
      · intro h0
        rw [hx, List.drop_eq_nil_iff] at h0
        have : min p.length seg.length ≤ p.length := Nat.min_le_left _ _
        omega
      · exact h x (List.mem_cons_of_mem seg hx)

/-- A read into a non-empty buffer returns at least one byte or `io.EOF`, when no
pending segment is empty. -/
theorem Reader.Read_progress (r : Reader) (p : List Byte) (hp : 0 < p.length)
    (h : ∀ seg ∈ r.pending, seg ≠ []) : (r.Read p).eof = true ∨ 0 < (r.Read p).n := by
  obtain ⟨pending, eager⟩ := r
  cases pending with
  | nil => left; rfl
  | cons seg rest =>
    right
    have hseg : 0 < seg.length := List.length_pos.2 (h seg (List.mem_cons_self seg rest))
    simp only [Reader.Read]
    omega

/-- A read that reports `io.EOF` leaves nothing pending. -/
theorem Reader.Read_eof (r : Reader) (p : List Byte) (h : (r.Read p).eof = true) :
    (r.Read p).reader.pending = [] := by
  obtain ⟨pending, eager⟩ := r
  cases pending with
  | nil => rfl
  | cons seg rest =>
    simp only [Reader.Read, Bool.and_eq_true, List.isEmpty_iff] at h
    exact h.2

/-- Also through `smallBuff` and `copy`, the bytes the chunk goroutine finds in
`outBuf[:n]` are the next `n` bytes of the file. -/
theorem UploadFilesHandler.chunkRead_conserve (cbs space : Nat) (file : Reader)
    (outBuf : List Byte) (hbuf : outBuf.length = cbs) :
    (UploadFilesHandler.chunkRead cbs space file outBuf).buf.take
        (UploadFilesHandler.chunkRead cbs space file outBuf).n
      ++ (UploadFilesHandler.chunkRead cbs space file outBuf).reader.pending.flatten
      = file.pending.flatten := by
  unfold UploadFilesHandler.chunkRead
  split
  · rename_i hlt
    have hn := Reader.Read_n_le file (List.replicate space 0)
    have hlen := Reader.Read_buf_length file (List.replicate space 0)
    rw [List.length_replicate] at hn hlen
    have hcopy : (copy outBuf (file.Read (List.replicate space 0)).buf).take
        (file.Read (List.replicate space 0)).n
        = (file.Read (List.replicate space 0)).buf.take
            (file.Read (List.replicate space 0)).n := by
      rw [copy, List.take_append_of_le_length (by rw [List.length_take, hlen, hbuf]; omega),
        List.take_take, Nat.min_eq_left (by rw [hbuf]; omega)]
    simp only [hcopy]
    exact Reader.Read_conserve file _
  · exact Reader.Read_conserve file outBuf

theorem UploadFilesHandler.chunkRead_segments (cbs space : Nat) (file : Reader)
    (outBuf : List Byte) (h : ∀ seg ∈ file.pending, seg ≠ []) :
    ∀ seg ∈ (UploadFilesHandler.chunkRead cbs space file outBuf).reader.pending, seg ≠ [] := by
  unfold UploadFilesHandler.chunkRead
  split
  · exact Reader.Read_segments file _ h
  · exact Reader.Read_segments file _ h

theorem UploadFilesHandler.chunkRead_progress (cbs space : Nat) (file : Reader)
    (outBuf : List Byte) (hbuf : outBuf.length = cbs) (hcbs : 0 < cbs) (hspace : 0 < space)
    (h : ∀ seg ∈ file.pending, seg ≠ []) :
    (UploadFilesHandler.chunkRead cbs space file outBuf).eof = true ∨
    0 < (UploadFilesHandler.chunkRead cbs space file outBuf).n := by
  unfold UploadFilesHandler.chunkRead
  split
  · exact Reader.Read_progress file _ (by rw [List.length_replicate]; exact hspace) h
  · exact Reader.Read_progress file _ (by rw [hbuf]; exact hcbs) h

theorem UploadFilesHandler.chunkRead_eof (cbs space : Nat) (file : Reader)
    (outBuf : List Byte)
    (h : (UploadFilesHandler.chunkRead cbs space file outBuf).eof = true) :
    (UploadFilesHandler.chunkRead cbs space file outBuf).reader.pending = [] := by
  unfold UploadFilesHandler.chunkRead at h ⊢
  split
  · rename_i hlt
    rw [if_pos hlt] at h
    exact Reader.Read_eof file _ h
  · rename_i hge
    rw [if_neg hge] at h
    exact Reader.Read_eof file _ h

theorem UploadFilesHandler.chunkRead_take_length (cbs space : Nat) (file : Reader)
    (outBuf : List Byte) (hbuf : outBuf.length = cbs) :
    ((UploadFilesHandler.chunkRead cbs space file outBuf).buf.take
      (UploadFilesHandler.chunkRead cbs space file outBuf).n).length
      = (UploadFilesHandler.chunkRead cbs space file outBuf).n := by
  have h1 := (UploadFilesHandler.chunkRead_n_le cbs space file outBuf hbuf).1
  have h2 := UploadFilesHandler.chunkRead_buf_length cbs space file outBuf
  rw [List.length_take]
  omega

/-- The chunk goroutine neither loses nor repeats a byte: its writes followed by
what the file still holds are what the file held; when it has seen `io.EOF` the
file holds nothing more; and started below the budget it has seen `io.EOF` or
written at least one byte. -/
theorem UploadFilesHandler.chunkWriter_conserve (T cbs fuel : Nat) (hcbs : 0 < cbs) :
    ∀ (file : Reader) (outBuf : List Byte) (cur : Nat) (piped : List (List Byte))
      (file1 : Reader) (outBuf1 : List Byte) (isEof : Bool),
      outBuf.length = cbs → (∀ seg ∈ file.pending, seg ≠ []) →
      UploadFilesHandler.chunkWriter T cbs fuel file outBuf cur
        = some (piped, file1, outBuf1, isEof) →
      piped.flatten ++ file1.pending.flatten = file.pending.flatten ∧
      (∀ seg ∈ file1.pending, seg ≠ []) ∧
      (isEof = true → file1.pending = []) ∧
      (cur < T → isEof = true ∨ piped.flatten ≠ []) := by
  induction fuel with
  | zero =>
    intro file outBuf cur piped file1 outBuf1 isEof _ _ h
    exact absurd h (by simp [UploadFilesHandler.chunkWriter])
  | succ fuel ih =>
    intro file outBuf cur piped file1 outBuf1 isEof hbuf hsegs h
    rw [UploadFilesHandler.chunkWriter] at h
    have hcons := UploadFilesHandler.chunkRead_conserve cbs (T - cur) file outBuf hbuf
    have hsegs1 := UploadFilesHandler.chunkRead_segments cbs (T - cur) file outBuf hsegs
    have hlen := UploadFilesHandler.chunkRead_buf_length cbs (T - cur) file outBuf
    have htl := UploadFilesHandler.chunkRead_take_length cbs (T - cur) file outBuf hbuf
    split at h
    · rename_i hcur
      simp only [Option.some.injEq, Prod.mk.injEq] at h
      obtain ⟨h1, h2, _, h4⟩ := h
      subst h1 h2 h4
      refine ⟨by simp, hsegs, fun h => absurd h (by decide), fun h => ?_⟩
      omega
    · rename_i hcur
      simp only at h
      split at h
      · rename_i heof
        simp only [Option.some.injEq, Prod.mk.injEq] at h
        obtain ⟨h1, h2, _, h4⟩ := h
        subst h1 h2 h4
        refine ⟨?_, hsegs1, fun _ => UploadFilesHandler.chunkRead_eof cbs (T - cur) file outBuf
          heof, fun _ => Or.inl rfl⟩
        rw [List.flatten_cons, List.flatten_nil, List.append_nil]
        exact hcons
      · rename_i heof
        split at h
        · exact absurd h (by simp)
        · rename_i writes f1 o1 e1 hrec
          simp only [Option.some.injEq, Prod.mk.injEq] at h
          obtain ⟨h1, h2, _, h4⟩ := h
          subst h1 h2 h4
          obtain ⟨ha, hb, hc, _⟩ := ih _ _ _ _ _ _ _ (hlen.trans hbuf) hsegs1 hrec
          refine ⟨?_, hb, hc, fun _ => Or.inr ?_⟩
          · rw [List.flatten_cons, List.append_assoc, ha]
            exact hcons
          · have hprog := UploadFilesHandler.chunkRead_progress cbs (T - cur) file outBuf hbuf
              hcbs (by omega) hsegs
            have hn : 0 < (UploadFilesHandler.chunkRead cbs (T - cur) file outBuf).n := by
              rcases hprog with hp | hp
              · exact absurd hp heof
              · exact hp
            intro h0
            rw [List.flatten_cons] at h0
            have := congrArg List.length (List.append_eq_nil.1 h0).1
            rw [htl, List.length_nil] at this
            omega

/-- The chunk goroutine comes to an end: every round charges at least 28 bytes to
a budget that the `uint64` counter can hold. -/
theorem UploadFilesHandler.chunkWriter_total (T cbs fuel : Nat) (hT : T + 28 < 2 ^ 64) :
    ∀ (file : Reader) (outBuf : List Byte) (cur : Nat),
      outBuf.length = cbs → 0 < fuel → T + 28 ≤ cur + 28 * fuel →
      ∃ r, UploadFilesHandler.chunkWriter T cbs fuel file outBuf cur = some r := by
  induction fuel with
  | zero => intro file outBuf cur _ h _; exact absurd h (Nat.lt_irrefl 0)
  | succ fuel ih =>
    intro file outBuf cur hbuf _ hfuel
    rw [UploadFilesHandler.chunkWriter]
    split
    · exact ⟨_, rfl⟩
    · rename_i hcur
      simp only
      split
      · exact ⟨_, rfl⟩
      · obtain ⟨hn1, _, hn3⟩ := UploadFilesHandler.chunkRead_n_le cbs (T - cur) file outBuf hbuf
        have hn : (UploadFilesHandler.chunkRead cbs (T - cur) file outBuf).n ≤ T - cur := by
          rcases hn3 with h3 | h3
          · exact Nat.le_trans hn1 h3
          · exact h3
        have hmod : (cur + (UploadFilesHandler.chunkRead cbs (T - cur) file outBuf).n
            + getEncryptionOverhead) % 2 ^ 64
            = cur + (UploadFilesHandler.chunkRead cbs (T - cur) file outBuf).n + 28 := by
          apply Nat.mod_eq_of_lt
          simp only [getEncryptionOverhead]
          omega
        obtain ⟨r, hr⟩ := ih (UploadFilesHandler.chunkRead cbs (T - cur) file outBuf).reader
          (UploadFilesHandler.chunkRead cbs (T - cur) file outBuf).buf
          (cur + (UploadFilesHandler.chunkRead cbs (T - cur) file outBuf).n + 28)
          ((UploadFilesHandler.chunkRead_buf_length cbs (T - cur) file outBuf).trans hbuf)
          (by omega) (by omega)
        rw [hmod, hr]
        obtain ⟨writes, f1, o1, e1⟩ := r
        exact ⟨_, rfl⟩

/-- The outer loop over a file whose reads return at least one byte or `io.EOF`:
it comes to its `break`, every chunk but the last carries at least one byte of
the file, and the writes to the pipes of the chunks, in order, are the file. -/
theorem UploadFilesHandler.chunkLoop_progress (c : Cryptographer) (filename : String)
    (T cbs : Nat) (hT : 16 < T) (hT64 : T + 28 < 2 ^ 64) (hcbs0 : 0 < cbs)
    (hcbs : cbs ≤ BUFFER_SIZE) (fuel : Nat) :
    ∀ (file : Reader) (outBuf : List Byte) (chunkId : Nat) (rand : RandReader),
      outBuf.length = cbs → (∀ seg ∈ file.pending, seg ≠ []) →
      file.pending.flatten.length < fuel →
      (UploadFilesHandler.chunkLoop c filename T cbs fuel file outBuf chunkId rand).2 = true ∧
      (UploadFilesHandler.chunkLoop c filename T cbs fuel file outBuf chunkId rand).1 ≠ [] ∧
      (UploadFilesHandler.chunkLoop c filename T cbs fuel file outBuf chunkId rand).1.length
        ≤ file.pending.flatten.length + 1 ∧
      ((UploadFilesHandler.chunkLoop c filename T cbs fuel file outBuf chunkId rand).1.flatMap
        (fun ch => ch.piped)).flatten = file.pending.flatten ∧
      ∀ ch ∈ (UploadFilesHandler.chunkLoop c filename T cbs fuel file outBuf chunkId
          rand).1.dropLast, ch.piped.flatten ≠ [] := by
  induction fuel with
  | zero => intro file outBuf chunkId rand _ _ h; exact absurd h (Nat.not_lt_zero _)
  | succ fuel ih =>
    intro file outBuf chunkId rand hbuf hsegs hfuel
    obtain ⟨res, hw⟩ := UploadFilesHandler.chunkWriter_total T cbs (T + 1) hT64 file outBuf 16
      hbuf (Nat.succ_pos T) (by omega)
    obtain ⟨piped, file1, outBuf1, isEof⟩ := res
    have hshape := UploadFilesHandler.chunkWriter_shape T cbs (T + 1) file outBuf 16 piped file1
      outBuf1 isEof hbuf hw
    obtain ⟨hcons, hsegs1, hdrained, hprog⟩ := UploadFilesHandler.chunkWriter_conserve T cbs
      (T + 1) hcbs0 file outBuf 16 piped file1 outBuf1 isEof hbuf hsegs hw
    rw [UploadFilesHandler.chunkLoop_step c filename T cbs fuel file outBuf chunkId rand piped
      file1 outBuf1 isEof hbuf hcbs hw]
    cases isEof with
    | true =>
      have hnil := hdrained rfl
      rw [hnil, List.flatten_nil, List.append_nil] at hcons
      simp only [if_true, List.length_singleton, List.flatMap_cons, List.flatMap_nil,
        List.append_nil, hcons, List.dropLast_single, List.not_mem_nil, ne_eq,
        List.cons_ne_nil, not_false_eq_true, true_and, false_implies, implies_true, and_true]
      omega
    | false =>
      have hne : piped.flatten ≠ [] := by
        rcases hprog hT with h | h
        · exact absurd h (by decide)
        · exact h
      have hlen := congrArg List.length hcons
      rw [List.length_append] at hlen
      have hpos : 0 < piped.flatten.length := List.length_pos.2 hne
      obtain ⟨h1, h2, h3, h4, h5⟩ := ih file1 outBuf1 (chunkId + 1)
        { rand with pos := rand.pos + 16 + 12 * (pipedBlocks piped).length } hshape.1 hsegs1
        (by omega)
      generalize UploadFilesHandler.chunkLoop c filename T cbs fuel file1 outBuf1 (chunkId + 1)
        { rand with pos := rand.pos + 16 + 12 * (pipedBlocks piped).length } = rest
        at h1 h2 h3 h4 h5
      simp only [Bool.false_eq_true, if_false]
      refine ⟨h1, List.cons_ne_nil _ _, ?_, ?_, ?_⟩
      · rw [List.length_cons]; omega
      · rw [List.flatMap_cons, List.flatten_append, h4]
        exact hcons
      · rw [List.dropLast_cons_of_ne_nil h2]
        intro ch hch
        rcases List.mem_cons.1 hch with h | h
        · rw [h]; exact hne
        · exact h5 ch h

theorem Reader.flatten_length_le_size (segs : List (List Byte)) (eager : Bool) :
    segs.flatten.length ≤ (Reader.mk segs eager).size := by
  induction segs with
  | nil => exact Nat.zero_le _
  | cons seg rest ih =>
    simp only [Reader.size, List.foldr, List.flatten_cons, List.length_append] at ih ⊢
    omega

/-- C12. For a chunk budget `T > 16` that the `uint64` counter can hold with its
last overhead (`T + 28 < 2^64`) and a file whose reads into a non-empty buffer
return at least one byte or `io.EOF`: the outer loop comes to its `break`, after
at least one and at most `L + 1` chunks for a file of `L` bytes; every round but
the last hands at least one byte of the file to the pipe of its chunk, and the
last is the one that has seen `io.EOF`; and the writes to the pipes of the chunks,
concatenated in chunk order, are exactly the bytes of the file. This covers the
residual read through `smallBuff` and the `T/4` buffer of budgets below 16384. -/
theorem chunked_upload_terminates_and_conserves (c : Cryptographer) (filename : String)
    (T : Nat) (file : Reader) (rand : RandReader) (hT : 16 < T) (hT64 : T + 28 < 2 ^ 64)
    (hfile : ∀ seg ∈ file.pending, seg ≠ []) :
    (UploadFilesHandler.chunked c filename T file rand).2 = true ∧
    (UploadFilesHandler.chunked c filename T file rand).1 ≠ [] ∧
    (UploadFilesHandler.chunked c filename T file rand).1.length
      ≤ file.pending.flatten.length + 1 ∧
    ((UploadFilesHandler.chunked c filename T file rand).1.flatMap
      (fun ch => ch.piped)).flatten = file.pending.flatten ∧
    ∀ ch ∈ (UploadFilesHandler.chunked c filename T file rand).1.dropLast,
      ch.piped.flatten ≠ [] := by
  have hcbs0 : 0 < (if T < BUFFER_SIZE then T / 4 else BUFFER_SIZE) := by
    split
    · omega
    · decide
  obtain ⟨pending, eager⟩ := file
  exact UploadFilesHandler.chunkLoop_progress c filename T _ hT hT64 hcbs0
    (UploadFilesHandler.chunkBufferSize_le T) _ _ _ 0 rand (List.length_replicate _ _) hfile
    (Nat.lt_succ_of_le (Reader.flatten_length_le_size pending eager))

theorem chunked_upload_terminates_and_conserves_witness :
    16 < 17 ∧ 17 + 28 < 2 ^ 64 ∧
    (∀ seg ∈ (Reader.ofBytes [72, 105, 33] false).pending, seg ≠ []) ∧
    (UploadFilesHandler.chunked ⟨tagCipher⟩ "file" 17 (Reader.ofBytes [72, 105, 33] false)
      ⟨fun i => UInt8.ofNat i, 0⟩).2 = true ∧
    (UploadFilesHandler.chunked ⟨tagCipher⟩ "file" 17 (Reader.ofBytes [72, 105, 33] false)
      ⟨fun i => UInt8.ofNat i, 0⟩).1.length
      ≤ (Reader.ofBytes [72, 105, 33] false).pending.flatten.length + 1 ∧
    ((UploadFilesHandler.chunked ⟨tagCipher⟩ "file" 17 (Reader.ofBytes [72, 105, 33] false)
      ⟨fun i => UInt8.ofNat i, 0⟩).1.flatMap (fun ch => ch.piped)).flatten
      = (Reader.ofBytes [72, 105, 33] false).pending.flatten ∧
    (Reader.ofBytes [72, 105, 33] false).pending.flatten = [72, 105, 33] :=
  have h := chunked_upload_terminates_and_conserves ⟨tagCipher⟩ "file" 17
    (Reader.ofBytes [72, 105, 33] false) ⟨fun i => UInt8.ofNat i, 0⟩ (by decide) (by decide)
    (by decide)
  ⟨by decide, by decide, by decide, h.1, h.2.2.1, h.2.2.2.1, by decide⟩

/-- With a budget of at most 16 bytes the chunk goroutine breaks before its first
read, so the outer loop never sees `io.EOF`: it stores one empty chunk after
the other and does not come to its `break`. -/
theorem UploadFilesHandler.chunkLoop_never_ends (c : Cryptographer) (filename : String)
    (T cbs : Nat) (hT : T ≤ 16) (hcbs : cbs ≤ BUFFER_SIZE) (fuel : Nat) :
    ∀ (file : Reader) (outBuf : List Byte) (chunkId : Nat) (rand : RandReader),
      outBuf.length = cbs →
      (UploadFilesHandler.chunkLoop c filename T cbs fuel file outBuf chunkId rand).2 = false ∧
      (UploadFilesHandler.chunkLoop c filename T cbs fuel file outBuf chunkId rand).1.length
        = fuel := by
  induction fuel with
  | zero => intro file outBuf chunkId rand _; exact ⟨rfl, rfl⟩
  | succ fuel ih =>
    intro file outBuf chunkId rand hbuf
    have hw := UploadFilesHandler.chunkWriter_done T cbs T file outBuf 16 hT
    rw [UploadFilesHandler.chunkLoop_step c filename T cbs fuel file outBuf chunkId rand []
      file outBuf false hbuf hcbs hw]
    obtain ⟨h1, h2⟩ := ih file outBuf (chunkId + 1)
      { rand with pos := rand.pos + 16 + 12 * (pipedBlocks []).length } hbuf
    simp only [Bool.false_eq_true, if_false, List.length_cons, h1, h2, and_self]

end TaurusMinio
